import Mathlib

/-!
Shallow embedding of the shortest-path core of this repository
(file `src/graph.py`) and proofs of the specification claims about it.

Modelling notes, tied to the source:

* A vertex is any hashable value; we embed it as a type `V` with decidable
  equality.  `GraphDistance` is Python `int`, embedded as `Int`.
* Python dictionaries preserve insertion order; we embed them as association
  lists (`List (V × α)`) with lookup `alookup`, in-place value update
  `aupdate` (Python assignment to an existing key keeps its position) and
  appending for fresh keys.
* `_PathRef` is a mutable cell.  In `calculate_shortest_paths` the only cells
  that are ever mutated (`_PathRef.set`, line 367 of the source) are the cells
  stored in the `shortest_paths` dictionary, one per settled vertex, and the
  cell registered for a vertex is never swapped for a different cell.  A
  `_PathSequence` therefore refers to its base cell by the settled vertex that
  owns it (the constructor argument `path_ref` at line 374/379 is exactly
  `shortest_paths[vertex]`).  The two `_PathRef`s handed to
  `_PathAlternatives` (line 359-360) are freshly allocated
  (`existing_path_ref.copy()` and `_PathRef(next_path)`) and are never
  mutated afterwards, so they are embedded as the plain path values they
  hold.  This is the arena-by-vertex view of the reference cells.
* `_Path.expand` returns a lazy generator of generators and may be infinite
  (cells can refer to each other cyclically through zero-weight cycles), so
  it is embedded as `Path.expandF`, a fuel-indexed enumeration: the routes of
  the lazy expansion are exactly the members of `expandF cells fuel p` for
  some fuel, and `expandF` is monotone in the fuel.  Similarly
  `get_source_vertex` chases cells and is embedded fuel-indexed.
  `get_distance` and `get_destination_vertex` do not chase cells in the
  source (`_PathSequence` caches its distance at construction and takes the
  destination from its added edge; `_PathAlternatives` delegates to `path1`)
  so they are plain structural functions.
* `queue.PriorityQueue` orders paths by `get_distance` only (the
  `total_ordering` on `_Path`).  The order in which equal-distance paths are
  popped is unspecified by the heap; we embed the deterministic refinement
  that pops the leftmost minimal element, which satisfies the same
  priority-queue contract.
* Python `assert` failures are embedded as error results: `Graph.__init__`
  returns `Option` (`none` on a duplicate vertex label or duplicate
  (source, destination) edge pair) and `calculate_shortest_paths` returns
  `Except Err`, with `Err.startNotMember` for the line-326 assertion and
  `Err.monotoneViolation` for the line-355 assertion.  The assertions inside
  the `_PathSequence` and `_PathAlternatives` constructors are internal
  invariants; the theorems below prove that the conditions they check hold at
  every construction site of the search (see the `TreeOK`/`LeafOK`
  invariants and the claim about in-place replacement).
* `_vertices_outgoing_edges` is a `defaultdict(list)`: the subscript access
  at line 377 inserts an empty list for a missing key.  This mutation of the
  graph object is embedded faithfully (`dget`), and
  `calculate_shortest_paths` returns the possibly-extended graph next to the
  result map.
* The loop always terminates (each iteration pops one queued path; every
  queued path is built from a distinct edge and each vertex settles at most
  once), which the embedding realises by running the loop on the generous
  fuel `(edges.length + 1) * (edges.length + 2)`; the theorems prove this
  fuel is never exhausted, so `Err.outOfFuel` is a modelling artifact that
  never occurs.
-/

namespace GraphSpec

/-- Association-list lookup: first entry whose key matches. -/
def alookup {V : Type} [DecidableEq V] {α : Type} : List (V × α) → V → Option α
  | [], _ => none
  | (k, a) :: t, v => if k = v then some a else alookup t v

/-- Association-list update of the first entry with the given key, keeping
its position (Python dict assignment to an existing key). -/
def aupdate {V : Type} [DecidableEq V] {α : Type} : List (V × α) → V → α → List (V × α)
  | [], _, _ => []
  | (k, a) :: t, v, b => if k = v then (k, b) :: t else (k, a) :: aupdate t v b

/-- Embeds the class `Edge` of the source: a directed weighted edge.
The fields embed `_source_vertex`, `_destination_vertex`, `_distance`
(the getters `get_source_vertex`, `get_destination_vertex`, `get_distance`
return them unchanged). -/
structure Edge (V : Type) where
  source_vertex : V
  destination_vertex : V
  distance : Int
deriving DecidableEq

/-- Embeds the `_Path` hierarchy as a closed sum:
`edge` embeds an `Edge` used as a path, `seq` embeds `_PathSequence`
(base cell named by the settled vertex owning it, the added edge, and the
distance cached at construction, line 188-189), `alt` embeds
`_PathAlternatives` (the two freshly allocated refs inlined as values,
`path1` first). -/
inductive Path (V : Type) where
  | edge (e : Edge V)
  | seq (base : V) (added_edge : Edge V) (dist : Int)
  | alt (path1 path2 : Path V)
deriving DecidableEq

/-- Embeds `get_distance`: an edge returns its weight, a `_PathSequence`
returns its cached `_distance`, a `_PathAlternatives` delegates to `path1`. -/
def Path.get_distance {V : Type} : Path V → Int
  | .edge e => e.distance
  | .seq _ _ d => d
  | .alt p1 _ => p1.get_distance

/-- Embeds `get_destination_vertex`: an edge returns its destination, a
`_PathSequence` the destination of its added edge, a `_PathAlternatives`
delegates to `path1`. -/
def Path.get_destination_vertex {V : Type} : Path V → V
  | .edge e => e.destination_vertex
  | .seq _ e _ => e.destination_vertex
  | .alt p1 _ => p1.get_destination_vertex

/-- Embeds `get_source_vertex`, which for a `_PathSequence` reads the current
content of its base cell (fuel-indexed because cells may refer to each other
cyclically; the value is `some` for all sufficiently large fuel on every path
the search builds). -/
def Path.get_source_vertexF {V : Type} [DecidableEq V]
    (cells : List (V × Path V)) : Nat → Path V → Option V
  | 0, _ => none
  | _ + 1, .edge e => some e.source_vertex
  | fuel + 1, .seq base _ _ => (alookup cells base).bind (Path.get_source_vertexF cells fuel)
  | fuel + 1, .alt p1 _ => Path.get_source_vertexF cells fuel p1

/-- Embeds `expand`: the routes yielded by the lazy generator, fuel-indexed.
An edge yields the single route holding just its destination (line 149-153);
a `_PathSequence` yields every route of the current content of its base cell
with its added edge's destination appended (line 209-216); a
`_PathAlternatives` yields the routes of `path1` then those of `path2`
(line 271-272).  The fuel only truncates: `expandF` is monotone in it. -/
def Path.expandF {V : Type} [DecidableEq V]
    (cells : List (V × Path V)) : Nat → Path V → List (List V)
  | 0, _ => []
  | _ + 1, .edge e => [[e.destination_vertex]]
  | fuel + 1, .seq base e _ =>
      match alookup cells base with
      | some p => (Path.expandF cells fuel p).map (fun r => r ++ [e.destination_vertex])
      | none => []
  | fuel + 1, .alt p1 p2 => Path.expandF cells fuel p1 ++ Path.expandF cells fuel p2

/-- Embeds the class `Graph`: the four fields set by `__init__`
(lines 296-321). -/
structure Graph (V : Type) where
  vertices : List V
  edges : List (Edge V)
  vertices_set : List V
  vertices_outgoing_edges : List (V × List (Edge V))
deriving DecidableEq

/-- The duplicate-vertex-label loop of `Graph.__init__` (lines 302-305):
builds the vertex set, failing on a repeated label.  The Python set is
embedded as the list of distinct labels in insertion order. -/
def buildVertexSet {V : Type} [DecidableEq V] : List V → List V → Option (List V)
  | acc, [] => some acc
  | acc, v :: t => if v ∈ acc then none else buildVertexSet (acc ++ [v]) t

/-- The (source, destination) pair of an edge, as used by the duplicate-edge
check of `Graph.__init__` (lines 308-314): the weight is ignored. -/
def edgeKey {V : Type} (e : Edge V) : V × V := (e.source_vertex, e.destination_vertex)

/-- The duplicate-edge loop of `Graph.__init__`: true iff no two edges share
a (source, destination) pair. -/
def checkNoDupEdges {V : Type} [DecidableEq V] : List (V × V) → List (Edge V) → Bool
  | _, [] => true
  | seen, e :: t => if edgeKey e ∈ seen then false else checkNoDupEdges (edgeKey e :: seen) t

/-- One step of the adjacency-building loop of `Graph.__init__`
(lines 317-319): append the edge to its source's list
(`defaultdict(list)` semantics). -/
def addOutgoing {V : Type} [DecidableEq V]
    (adj : List (V × List (Edge V))) (e : Edge V) : List (V × List (Edge V)) :=
  match alookup adj e.source_vertex with
  | some es => aupdate adj e.source_vertex (es ++ [e])
  | none => adj ++ [(e.source_vertex, [e])]

/-- Embeds `Graph.__init__`: fails (Python `AssertionError`) on a duplicate
vertex label or a duplicate (source, destination) edge pair, otherwise
stores the two lists, the vertex set and the adjacency index. -/
def Graph.init {V : Type} [DecidableEq V]
    (vertices : List V) (edges : List (Edge V)) : Option (Graph V) :=
  match buildVertexSet [] vertices with
  | none => none
  | some vset =>
    if checkNoDupEdges [] edges then
      some ⟨vertices, edges, vset, edges.foldl addOutgoing []⟩
    else none

/-- Subscript access on the `defaultdict` `_vertices_outgoing_edges`
(line 377): returns the stored list, inserting an empty list for a missing
key (this is the one mutation of the graph after construction). -/
def dget {V : Type} [DecidableEq V]
    (adj : List (V × List (Edge V))) (v : V) : List (Edge V) × List (V × List (Edge V)) :=
  match alookup adj v with
  | some es => (es, adj)
  | none => ([], adj ++ [(v, [])])

/-- Embeds `queue.PriorityQueue.get`: removes a path of minimal
`get_distance` (the leftmost one, a deterministic refinement of the heap,
whose order among equal keys is unspecified). -/
def popMin {V : Type} : List (Path V) → Option (Path V × List (Path V))
  | [] => none
  | p :: t =>
    match popMin t with
    | none => some (p, [])
    | some (q, r) =>
      if p.get_distance ≤ q.get_distance then some (p, t) else some (q, p :: r)

/-- The mutable state of one `calculate_shortest_paths` call:
the `shortest_paths` dictionary (settled vertex to current cell content),
the priority queue contents in insertion order, and the graph's adjacency
`defaultdict` (mutable through `dget`). -/
structure SPState (V : Type) where
  cells : List (V × Path V)
  queue : List (Path V)
  adj : List (V × List (Edge V))
deriving DecidableEq

/-- The failures of `calculate_shortest_paths`: the line-326 assertion on an
unknown start vertex, the line-355 assertion on a popped path shorter than a
settled one, and the fuel artifact of the embedding (proved unreachable). -/
inductive Err where
  | startNotMember
  | monotoneViolation
  | outOfFuel
deriving DecidableEq

/-- Result of one iteration of the while loop (lines 346-382). -/
inductive StepRes (V : Type) where
  | next (st : SPState V)
  | done (st : SPState V)
  | fail (e : Err)
deriving DecidableEq

/-- One iteration of the while loop of `calculate_shortest_paths`
(lines 346-382): pop the minimal path; if its destination is settled, check
the line-355 assertion and merge an equal-distance path into the settled
cell as a `_PathAlternatives` (in place, line 359-367); otherwise settle the
destination with a fresh cell and push a `_PathSequence` over that cell for
every outgoing edge (lines 371-382, reading the adjacency `defaultdict`). -/
def stepFn {V : Type} [DecidableEq V] (st : SPState V) : StepRes V :=
  match popMin st.queue with
  | none => .done st
  | some (next_path, rest) =>
    let vertex := next_path.get_destination_vertex
    match alookup st.cells vertex with
    | some existing_path =>
      if existing_path.get_distance ≤ next_path.get_distance then
        if existing_path.get_distance = next_path.get_distance then
          .next ⟨aupdate st.cells vertex (.alt existing_path next_path), rest, st.adj⟩
        else
          .next ⟨st.cells, rest, st.adj⟩
      else .fail .monotoneViolation
    | none =>
      let out := dget st.adj vertex
      .next ⟨st.cells ++ [(vertex, next_path)],
             rest ++ out.1.map (fun e => Path.seq vertex e (next_path.get_distance + e.distance)),
             out.2⟩

/-- The while loop, run on fuel (the theorems prove that the fuel passed by
`calculate_shortest_paths` always suffices). -/
def loop {V : Type} [DecidableEq V] : Nat → SPState V → Except Err (SPState V)
  | 0, _ => .error .outOfFuel
  | fuel + 1, st =>
    match stepFn st with
    | .fail e => .error e
    | .done stF => .ok stF
    | .next st' => loop fuel st'

/-- The state just before the while loop (lines 329-339): the queue seeded
with the start vertex's outgoing edges (line 334, a non-inserting
`dict.get`), and the implicit zero-distance self path for the start vertex
(line 339). -/
def initState {V : Type} [DecidableEq V] (g : Graph V) (start : V) : SPState V :=
  { cells := [(start, .edge ⟨start, start, 0⟩)],
    queue := ((alookup g.vertices_outgoing_edges start).getD []).map .edge,
    adj := g.vertices_outgoing_edges }

/-- Embeds `Graph.calculate_shortest_paths` (lines 323-388).  The returned
pair holds the graph as it is after the call (its adjacency `defaultdict`
may have gained empty entries through line 377) and the unwrapped
vertex-to-path result dictionary (lines 385-388). -/
def Graph.calculate_shortest_paths {V : Type} [DecidableEq V] (g : Graph V) (start : V) :
    Except Err (Graph V × List (V × Path V)) :=
  if start ∈ g.vertices then
    match loop ((g.edges.length + 1) * (g.edges.length + 2)) (initState g start) with
    | .error e => .error e
    | .ok stF => .ok ({ g with vertices_outgoing_edges := stF.adj }, stF.cells)
  else .error .startNotMember

/-- Specification-side notion of a route: `RouteTo es s v r w` holds when
`r` is the vertex sequence (source excluded, destination included) of a walk
from `s` to `v` along edges of `es` with total weight `w`.  This is the
format `expand` yields. -/
inductive RouteTo {V : Type} (es : List (Edge V)) (s : V) : V → List V → Int → Prop
  | single {e : Edge V} : e ∈ es → e.source_vertex = s →
      RouteTo es s e.destination_vertex [e.destination_vertex] e.distance
  | snoc {u : V} {r : List V} {w : Int} {e : Edge V} :
      RouteTo es s u r w → e ∈ es → e.source_vertex = u →
      RouteTo es s e.destination_vertex (r ++ [e.destination_vertex]) (w + e.distance)


section AssocLemmas

variable {V : Type} [DecidableEq V] {α : Type}

theorem alookup_append_of_some {l l' : List (V × α)} {v : V} {a : α}
    (h : alookup l v = some a) : alookup (l ++ l') v = some a := by
  induction l with
  | nil => simp [alookup] at h
  | cons x t ih =>
    obtain ⟨k, b⟩ := x
    by_cases hk : k = v
    · simp only [alookup, if_pos hk] at h ⊢
      exact h
    · simp only [List.cons_append, alookup, if_neg hk] at h ⊢
      exact ih h

theorem alookup_append_of_none {l l' : List (V × α)} {v : V}
    (h : alookup l v = none) : alookup (l ++ l') v = alookup l' v := by
  induction l with
  | nil => simp
  | cons x t ih =>
    obtain ⟨k, b⟩ := x
    by_cases hk : k = v
    · simp [alookup, if_pos hk] at h
    · simp only [List.cons_append, alookup, if_neg hk] at h ⊢
      exact ih h

theorem alookup_eq_none_iff {l : List (V × α)} {v : V} :
    alookup l v = none ↔ v ∉ l.map Prod.fst := by
  induction l with
  | nil => simp [alookup]
  | cons x t ih =>
    obtain ⟨k, b⟩ := x
    by_cases hk : k = v
    · subst hk
      simp [alookup]
    · simp only [alookup, if_neg hk, ih, List.map_cons, List.mem_cons]
      constructor
      · rintro h (h1 | h2)
        · exact hk h1.symm
        · exact h h2
      · intro h h2
        exact h (Or.inr h2)

theorem alookup_isSome_iff {l : List (V × α)} {v : V} :
    (alookup l v).isSome = true ↔ v ∈ l.map Prod.fst := by
  rcases h : alookup l v with _ | a
  · simp only [Option.isSome_none, Bool.false_eq_true, false_iff]
    exact alookup_eq_none_iff.mp h
  · simp only [Option.isSome_some, true_iff]
    by_contra hn
    rw [alookup_eq_none_iff.mpr hn] at h
    cases h

theorem alookup_mem {l : List (V × α)} {v : V} {a : α}
    (h : alookup l v = some a) : (v, a) ∈ l := by
  induction l with
  | nil => simp [alookup] at h
  | cons x t ih =>
    obtain ⟨k, b⟩ := x
    by_cases hk : k = v
    · simp only [alookup, if_pos hk] at h
      subst hk
      obtain rfl : b = a := by injection h
      exact List.mem_cons_self _ _
    · simp only [alookup, if_neg hk] at h
      exact List.mem_cons_of_mem _ (ih h)

theorem mem_alookup {l : List (V × α)} {v : V} {a : α}
    (hnd : (l.map Prod.fst).Nodup) (h : (v, a) ∈ l) : alookup l v = some a := by
  induction l with
  | nil => cases h
  | cons x t ih =>
    obtain ⟨k, b⟩ := x
    simp only [List.map_cons, List.nodup_cons] at hnd
    rcases List.mem_cons.mp h with h1 | h2
    · rw [Prod.mk.injEq] at h1
      obtain ⟨rfl, rfl⟩ := h1
      simp [alookup]
    · have hk : k ≠ v := by
        rintro rfl
        exact hnd.1 (List.mem_map.mpr ⟨(k, a), h2, rfl⟩)
      simp only [alookup, if_neg hk]
      exact ih hnd.2 h2

theorem aupdate_keys (l : List (V × α)) (v : V) (b : α) :
    (aupdate l v b).map Prod.fst = l.map Prod.fst := by
  induction l with
  | nil => rfl
  | cons x t ih =>
    obtain ⟨k, a⟩ := x
    by_cases hk : k = v
    · simp [aupdate, if_pos hk]
    · simp [aupdate, if_neg hk, ih]

theorem alookup_aupdate_self {l : List (V × α)} {v : V} {a : α} (b : α)
    (h : alookup l v = some a) : alookup (aupdate l v b) v = some b := by
  induction l with
  | nil => simp [alookup] at h
  | cons x t ih =>
    obtain ⟨k, c⟩ := x
    by_cases hk : k = v
    · simp [aupdate, if_pos hk, alookup, hk]
    · simp only [alookup, if_neg hk] at h
      simp [aupdate, if_neg hk, alookup, hk, ih h]

theorem alookup_aupdate_of_ne {l : List (V × α)} {v w : V} (b : α)
    (hne : w ≠ v) : alookup (aupdate l v b) w = alookup l w := by
  induction l with
  | nil => rfl
  | cons x t ih =>
    obtain ⟨k, c⟩ := x
    by_cases hk : k = v
    · subst hk
      have hkw : ¬ (k = w) := fun h => hne h.symm
      simp [aupdate, alookup, hkw]
    · simp only [aupdate, if_neg hk]
      by_cases hw : k = w
      · simp [alookup, hw]
      · simp [alookup, hw, ih]

theorem mem_aupdate {l : List (V × α)} {v : V} {b : α} {x : V × α}
    (h : x ∈ aupdate l v b) : x ∈ l ∨ x = (v, b) := by
  induction l with
  | nil => cases h
  | cons y t ih =>
    obtain ⟨k, a⟩ := y
    by_cases hk : k = v
    · simp only [aupdate, if_pos hk] at h
      rcases List.mem_cons.mp h with h1 | h2
      · subst hk
        exact Or.inr h1
      · exact Or.inl (List.mem_cons_of_mem _ h2)
    · simp only [aupdate, if_neg hk] at h
      rcases List.mem_cons.mp h with h1 | h2
      · exact Or.inl (h1 ▸ List.mem_cons_self _ _)
      · rcases ih h2 with h3 | h3
        · exact Or.inl (List.mem_cons_of_mem _ h3)
        · exact Or.inr h3

end AssocLemmas

section PopMinLemmas

variable {V : Type}

theorem popMin_eq_none_iff {l : List (Path V)} : popMin l = none ↔ l = [] := by
  cases l with
  | nil => simp [popMin]
  | cons p t =>
    simp only [popMin]
    rcases popMin t with _ | ⟨q, r⟩
    · simp
    · by_cases h : p.get_distance ≤ q.get_distance <;> simp [h]

theorem popMin_perm {l : List (Path V)} {q : Path V} {r : List (Path V)}
    (h : popMin l = some (q, r)) : l.Perm (q :: r) := by
  induction l generalizing q r with
  | nil => simp [popMin] at h
  | cons p t ih =>
    rcases ht : popMin t with _ | ⟨q', r'⟩
    · obtain rfl : t = [] := popMin_eq_none_iff.mp ht
      simp only [popMin] at h
      rw [Option.some.injEq, Prod.mk.injEq] at h
      obtain ⟨rfl, rfl⟩ := h
      exact List.Perm.refl _
    · simp only [popMin, ht] at h
      by_cases hle : p.get_distance ≤ q'.get_distance
      · rw [if_pos hle, Option.some.injEq, Prod.mk.injEq] at h
        obtain ⟨rfl, rfl⟩ := h
        exact List.Perm.refl _
      · rw [if_neg hle, Option.some.injEq, Prod.mk.injEq] at h
        obtain ⟨rfl, rfl⟩ := h
        exact ((ih ht).cons p).trans (List.Perm.swap q' p r')

theorem popMin_le {l : List (Path V)} {q : Path V} {r : List (Path V)}
    (h : popMin l = some (q, r)) :
    ∀ x ∈ l, q.get_distance ≤ x.get_distance := by
  induction l generalizing q r with
  | nil => simp [popMin] at h
  | cons p t ih =>
    rcases ht : popMin t with _ | ⟨q', r'⟩
    · obtain rfl : t = [] := popMin_eq_none_iff.mp ht
      simp only [popMin] at h
      rw [Option.some.injEq, Prod.mk.injEq] at h
      obtain ⟨rfl, rfl⟩ := h
      intro x hx
      rcases List.mem_cons.mp hx with rfl | h2
      · exact le_refl _
      · cases h2
    · simp only [popMin, ht] at h
      by_cases hle : p.get_distance ≤ q'.get_distance
      · rw [if_pos hle, Option.some.injEq, Prod.mk.injEq] at h
        obtain ⟨rfl, rfl⟩ := h
        intro x hx
        rcases List.mem_cons.mp hx with rfl | h2
        · exact le_refl _
        · exact hle.trans (ih ht x h2)
      · rw [if_neg hle, Option.some.injEq, Prod.mk.injEq] at h
        obtain ⟨rfl, rfl⟩ := h
        intro x hx
        rcases List.mem_cons.mp hx with rfl | h2
        · exact le_of_lt (not_le.mp hle)
        · exact ih ht x h2

theorem popMin_mem {l : List (Path V)} {q : Path V} {r : List (Path V)}
    (h : popMin l = some (q, r)) : q ∈ l :=
  (popMin_perm h).mem_iff.mpr (List.mem_cons_self _ _)

theorem popMin_rest_subset {l : List (Path V)} {q : Path V} {r : List (Path V)}
    (h : popMin l = some (q, r)) : ∀ x ∈ r, x ∈ l :=
  fun x hx => (popMin_perm h).mem_iff.mpr (List.mem_cons_of_mem _ hx)

end PopMinLemmas

section ExpandLemmas

variable {V : Type} [DecidableEq V]

/-- Pointwise extension of cell maps: every present binding is preserved.
Holds when entries with fresh keys are appended (settling) and when an
existing value is only compared by bindings it keeps. -/
def CellsLE (cells cells' : List (V × Path V)) : Prop :=
  ∀ v p, alookup cells v = some p → alookup cells' v = some p

theorem cellsLE_refl (cells : List (V × Path V)) : CellsLE cells cells :=
  fun _ _ h => h

theorem cellsLE_append (cells ext : List (V × Path V)) :
    CellsLE cells (cells ++ ext) :=
  fun _ _ h => alookup_append_of_some h

theorem expandF_sublist_succ (cells : List (V × Path V)) :
    ∀ (f : Nat) (p : Path V),
      (Path.expandF cells f p).Sublist (Path.expandF cells (f + 1) p) := by
  intro f
  induction f with
  | zero => intro p; simp [Path.expandF]
  | succ f ih =>
    intro p
    cases p with
    | edge e => simp [Path.expandF]
    | seq b e d =>
      simp only [Path.expandF]
      rcases alookup cells b with _ | pb
      · simp
      · exact (ih pb).map _
    | alt p1 p2 =>
      simp only [Path.expandF]
      exact (ih p1).append (ih p2)

theorem expandF_mono (cells : List (V × Path V)) {f f' : Nat} (h : f ≤ f') (p : Path V) :
    (Path.expandF cells f p).Sublist (Path.expandF cells f' p) := by
  induction f' with
  | zero =>
    obtain rfl : f = 0 := Nat.le_zero.mp h
    exact List.Sublist.refl _
  | succ f' ih =>
    rcases Nat.lt_or_ge f (f' + 1) with hf | hf
    · exact (ih (Nat.lt_succ_iff.mp hf)).trans (expandF_sublist_succ cells f' p)
    · obtain rfl : f = f' + 1 := Nat.le_antisymm h hf
      exact List.Sublist.refl _

theorem expandF_mem_mono (cells : List (V × Path V)) {f f' : Nat} (h : f ≤ f')
    {p : Path V} {r : List V} (hr : r ∈ Path.expandF cells f p) :
    r ∈ Path.expandF cells f' p :=
  (expandF_mono cells h p).subset hr

theorem expandF_cellsLE {cells cells' : List (V × Path V)}
    (hle : CellsLE cells cells') :
    ∀ (f : Nat) (p : Path V),
      (Path.expandF cells f p).Sublist (Path.expandF cells' f p) := by
  intro f
  induction f with
  | zero => intro p; simp [Path.expandF]
  | succ f ih =>
    intro p
    cases p with
    | edge e => simp [Path.expandF]
    | seq b e d =>
      simp only [Path.expandF]
      rcases hb : alookup cells b with _ | pb
      · simp
      · rw [hle b pb hb]
        exact (ih pb).map _
    | alt p1 p2 =>
      simp only [Path.expandF]
      exact (ih p1).append (ih p2)

theorem expandF_upgrade {cells : List (V × Path V)} {x : V} {px q : Path V}
    (hx : alookup cells x = some px) :
    ∀ (f : Nat) (p : Path V) (r : List V),
      r ∈ Path.expandF cells f p →
      r ∈ Path.expandF (aupdate cells x (.alt px q)) (2 * f) p := by
  intro f
  induction f with
  | zero => intro p r hr; simp [Path.expandF] at hr
  | succ f ih =>
    intro p r hr
    have h2 : 2 * (f + 1) = (2 * f + 1) + 1 := by ring
    rw [h2]
    cases p with
    | edge e =>
      simp only [Path.expandF] at hr ⊢
      exact hr
    | seq b e d =>
      simp only [Path.expandF] at hr ⊢
      by_cases hbx : b = x
      · subst hbx
        rw [hx] at hr
        rw [alookup_aupdate_self _ hx]
        simp only [List.mem_map] at hr ⊢
        obtain ⟨r0, hr0, rfl⟩ := hr
        refine ⟨r0, ?_, rfl⟩
        show r0 ∈ Path.expandF (aupdate cells b (.alt px q)) (2 * f + 1) (.alt px q)
        simp only [Path.expandF]
        exact List.mem_append.mpr (Or.inl (ih px r0 hr0))
      · rw [alookup_aupdate_of_ne _ hbx]
        rcases hb : alookup cells b with _ | pb
        · rw [hb] at hr
          cases hr
        · rw [hb] at hr
          simp only [List.mem_map] at hr ⊢
          obtain ⟨r0, hr0, rfl⟩ := hr
          exact ⟨r0, expandF_mem_mono _ (Nat.le_succ _) (ih pb r0 hr0), rfl⟩
    | alt p1 p2 =>
      simp only [Path.expandF] at hr ⊢
      rcases List.mem_append.mp hr with h1 | h1
      · exact List.mem_append.mpr
          (Or.inl (expandF_mem_mono _ (Nat.le_succ _) (ih p1 r h1)))
      · exact List.mem_append.mpr
          (Or.inr (expandF_mem_mono _ (Nat.le_succ _) (ih p2 r h1)))

theorem srcF_mono (cells : List (V × Path V)) :
    ∀ {f f' : Nat}, f ≤ f' → ∀ {p : Path V} {v : V},
      Path.get_source_vertexF cells f p = some v →
      Path.get_source_vertexF cells f' p = some v := by
  have step : ∀ (f : Nat) (p : Path V) (v : V),
      Path.get_source_vertexF cells f p = some v →
      Path.get_source_vertexF cells (f + 1) p = some v := by
    intro f
    induction f with
    | zero => intro p v h; simp [Path.get_source_vertexF] at h
    | succ f ih =>
      intro p v h
      cases p with
      | edge e => simpa [Path.get_source_vertexF] using h
      | seq b e d =>
        simp only [Path.get_source_vertexF] at h ⊢
        rcases hb : alookup cells b with _ | pb
        · rw [hb] at h
          cases h
        · rw [hb] at h
          simp only [Option.some_bind] at h ⊢
          exact ih pb v h
      | alt p1 p2 =>
        simp only [Path.get_source_vertexF] at h ⊢
        exact ih p1 v h
  intro f f' hle
  induction f' with
  | zero =>
    obtain rfl : f = 0 := Nat.le_zero.mp hle
    exact fun h => h
  | succ f' ih =>
    intro p v h
    rcases Nat.lt_or_ge f (f' + 1) with hf | hf
    · exact step f' p v (ih (Nat.lt_succ_iff.mp hf) h)
    · obtain rfl : f = f' + 1 := Nat.le_antisymm hle hf
      exact h

theorem srcF_cellsLE {cells cells' : List (V × Path V)}
    (hle : CellsLE cells cells') :
    ∀ (f : Nat) {p : Path V} {v : V},
      Path.get_source_vertexF cells f p = some v →
      Path.get_source_vertexF cells' f p = some v := by
  intro f
  induction f with
  | zero => intro p v h; simp [Path.get_source_vertexF] at h
  | succ f ih =>
    intro p v h
    cases p with
    | edge e => simpa [Path.get_source_vertexF] using h
    | seq b e d =>
      simp only [Path.get_source_vertexF] at h ⊢
      rcases hb : alookup cells b with _ | pb
      · rw [hb] at h
        cases h
      · rw [hb] at h
        rw [hle b pb hb]
        simp only [Option.some_bind] at h ⊢
        exact ih h
    | alt p1 p2 =>
      simp only [Path.get_source_vertexF] at h ⊢
      exact ih h

theorem srcF_upgrade {cells : List (V × Path V)} {x : V} {px q : Path V}
    (hx : alookup cells x = some px) :
    ∀ (f : Nat) {p : Path V} {v : V},
      Path.get_source_vertexF cells f p = some v →
      Path.get_source_vertexF (aupdate cells x (.alt px q)) (2 * f) p = some v := by
  intro f
  induction f with
  | zero => intro p v h; simp [Path.get_source_vertexF] at h
  | succ f ih =>
    intro p v h
    have h2 : 2 * (f + 1) = (2 * f + 1) + 1 := by ring
    rw [h2]
    cases p with
    | edge e => simpa [Path.get_source_vertexF] using h
    | seq b e d =>
      simp only [Path.get_source_vertexF] at h ⊢
      by_cases hbx : b = x
      · subst hbx
        rw [hx] at h
        rw [alookup_aupdate_self _ hx]
        simp only [Option.some_bind] at h ⊢
        show Path.get_source_vertexF (aupdate cells b (.alt px q)) (2 * f + 1) (.alt px q) = some v
        simp only [Path.get_source_vertexF]
        exact ih h
      · rw [alookup_aupdate_of_ne _ hbx]
        rcases hb : alookup cells b with _ | pb
        · rw [hb] at h
          cases h
        · rw [hb] at h
          simp only [Option.some_bind] at h ⊢
          exact srcF_mono _ (Nat.le_succ _) (ih h)
    | alt p1 p2 =>
      simp only [Path.get_source_vertexF] at h ⊢
      exact srcF_mono _ (Nat.le_succ _) (ih h)

/-- The leaf paths of a `_PathAlternatives` tree, left to right.  Each leaf
is the value of one popped path merged into the settled cell (the alt-free
paths the queue ever holds). -/
def leaves {V : Type} : Path V → List (Path V)
  | .edge e => [.edge e]
  | .seq b e d => [.seq b e d]
  | .alt p1 p2 => leaves p1 ++ leaves p2

/-- The edge a leaf path carries (for a sequence, its added edge). -/
def leafEdge {V : Type} : Path V → Edge V
  | .edge e => e
  | .seq _ e _ => e
  | .alt p1 _ => leafEdge p1

theorem leaves_ne_nil {p : Path V} : leaves p ≠ [] := by
  induction p with
  | edge e => simp [leaves]
  | seq b e d => simp [leaves]
  | alt p1 p2 ih1 ih2 => simp [leaves, ih1]

theorem expandF_of_mem_leaves {cells : List (V × Path V)} {p q : Path V}
    (hl : p ∈ leaves q) (f : Nat) :
    ∃ f', ∀ r ∈ Path.expandF cells f p, r ∈ Path.expandF cells f' q := by
  induction q with
  | edge e =>
    simp only [leaves, List.mem_singleton] at hl
    exact ⟨f, by rw [hl]; exact fun r hr => hr⟩
  | seq b e d =>
    simp only [leaves, List.mem_singleton] at hl
    exact ⟨f, by rw [hl]; exact fun r hr => hr⟩
  | alt p1 p2 ih1 ih2 =>
    simp only [leaves, List.mem_append] at hl
    rcases hl with h1 | h1
    · obtain ⟨f', hf'⟩ := ih1 h1
      refine ⟨f' + 1, fun r hr => ?_⟩
      simp only [Path.expandF]
      exact List.mem_append.mpr (Or.inl (hf' r hr))
    · obtain ⟨f', hf'⟩ := ih2 h1
      refine ⟨f' + 1, fun r hr => ?_⟩
      simp only [Path.expandF]
      exact List.mem_append.mpr (Or.inr (hf' r hr))

end ExpandLemmas

section InitLemmas

variable {V : Type} [DecidableEq V]

/-- The outgoing edges of a vertex, in edge-list order: what the adjacency
index built by `Graph.__init__` stores for a present key. -/
def outEdges (es : List (Edge V)) (v : V) : List (Edge V) :=
  es.filter (fun e => decide (e.source_vertex = v))

theorem outEdges_append (es es' : List (Edge V)) (v : V) :
    outEdges (es ++ es') v = outEdges es v ++ outEdges es' v := by
  simp [outEdges]

theorem mem_outEdges {es : List (Edge V)} {v : V} {e : Edge V} :
    e ∈ outEdges es v ↔ e ∈ es ∧ e.source_vertex = v := by
  simp [outEdges, List.mem_filter]

theorem buildVertexSet_isSome :
    ∀ (t acc : List V), (buildVertexSet acc t).isSome = true ↔
      t.Nodup ∧ ∀ v ∈ t, v ∉ acc := by
  intro t
  induction t with
  | nil => intro acc; simp [buildVertexSet]
  | cons v t ih =>
    intro acc
    by_cases hv : v ∈ acc
    · simp only [buildVertexSet, if_pos hv, Option.isSome_none, Bool.false_eq_true, false_iff]
      intro ⟨_, h⟩
      exact h v (List.mem_cons_self _ _) hv
    · simp only [buildVertexSet, if_neg hv, ih]
      constructor
      · rintro ⟨hnd, hall⟩
        refine ⟨List.nodup_cons.mpr ⟨?_, hnd⟩, ?_⟩
        · intro hvt
          exact hall v hvt (List.mem_append.mpr (Or.inr (List.mem_singleton.mpr rfl)))
        · intro w hw
          rcases List.mem_cons.mp hw with rfl | hw2
          · exact hv
          · intro hwacc
            exact hall w hw2 (List.mem_append.mpr (Or.inl hwacc))
      · rintro ⟨hnd, hall⟩
        obtain ⟨hvt, hnd'⟩ := List.nodup_cons.mp hnd
        refine ⟨hnd', fun w hw hwa => ?_⟩
        rcases List.mem_append.mp hwa with h1 | h1
        · exact hall w (List.mem_cons_of_mem _ hw) h1
        · obtain rfl : w = v := List.mem_singleton.mp h1
          exact hvt hw

theorem buildVertexSet_eq :
    ∀ (t acc l : List V), buildVertexSet acc t = some l → l = acc ++ t := by
  intro t
  induction t with
  | nil =>
    intro acc l h
    simp only [buildVertexSet, Option.some.injEq] at h
    simp [h.symm]
  | cons v t ih =>
    intro acc l h
    by_cases hv : v ∈ acc
    · simp [buildVertexSet, if_pos hv] at h
    · simp only [buildVertexSet, if_neg hv] at h
      rw [ih _ _ h]
      simp

theorem checkNoDupEdges_iff :
    ∀ (t : List (Edge V)) (seen : List (V × V)),
      checkNoDupEdges seen t = true ↔
        (t.map edgeKey).Nodup ∧ ∀ e ∈ t, edgeKey e ∉ seen := by
  intro t
  induction t with
  | nil => intro seen; simp [checkNoDupEdges]
  | cons e t ih =>
    intro seen
    by_cases he : edgeKey e ∈ seen
    · simp only [checkNoDupEdges, if_pos he, Bool.false_eq_true, false_iff]
      intro ⟨_, h⟩
      exact h e (List.mem_cons_self _ _) he
    · simp only [checkNoDupEdges, if_neg he, ih]
      constructor
      · rintro ⟨hnd, hall⟩
        refine ⟨List.nodup_cons.mpr ⟨?_, hnd⟩, ?_⟩
        · intro hkey
          obtain ⟨e', he', hke⟩ := List.mem_map.mp hkey
          exact hall e' he' (hke ▸ List.mem_cons_self _ _)
        · intro e' he'
          rcases List.mem_cons.mp he' with rfl | h2
          · exact he
          · intro hseen
            exact hall e' h2 (List.mem_cons_of_mem _ hseen)
      · rintro ⟨hnd, hall⟩
        obtain ⟨hke, hnd'⟩ := List.nodup_cons.mp hnd
        refine ⟨hnd', fun e' he' hsn => ?_⟩
        rcases List.mem_cons.mp hsn with h1 | h1
        · exact hke (List.mem_map.mpr ⟨e', he', h1⟩)
        · exact hall e' (List.mem_cons_of_mem _ he') h1

theorem init_isSome_iff (vs : List V) (es : List (Edge V)) :
    (Graph.init vs es).isSome = true ↔ vs.Nodup ∧ (es.map edgeKey).Nodup := by
  unfold Graph.init
  rcases hb : buildVertexSet [] vs with _ | vset
  · simp only [Option.isSome_none, Bool.false_eq_true, false_iff]
    intro ⟨hnd, _⟩
    have : (buildVertexSet ([] : List V) vs).isSome = true :=
      (buildVertexSet_isSome vs []).mpr ⟨hnd, by simp⟩
    rw [hb] at this
    cases this
  · have hvs : vs.Nodup := by
      have := (buildVertexSet_isSome vs []).mp (by rw [hb]; rfl)
      exact this.1
    by_cases hc : checkNoDupEdges [] es = true
    · simp only [hc, if_pos]
      simp only [Option.isSome_some, true_iff]
      refine ⟨hvs, ?_⟩
      exact ((checkNoDupEdges_iff es []).mp hc).1
    · simp only [if_neg hc, Option.isSome_none, Bool.false_eq_true, false_iff]
      intro ⟨_, hnd⟩
      exact hc ((checkNoDupEdges_iff es []).mpr ⟨hnd, by simp⟩)

theorem init_some_fields {vs : List V} {es : List (Edge V)} {g : Graph V}
    (h : Graph.init vs es = some g) :
    g.vertices = vs ∧ g.edges = es ∧ g.vertices_set = vs ∧
    g.vertices_outgoing_edges = es.foldl addOutgoing [] ∧
    vs.Nodup ∧ (es.map edgeKey).Nodup := by
  have hs : (Graph.init vs es).isSome = true := by rw [h]; rfl
  obtain ⟨hvs, hes⟩ := (init_isSome_iff vs es).mp hs
  unfold Graph.init at h
  rcases hb : buildVertexSet [] vs with _ | vset
  · rw [hb] at h
    dsimp only at h
    cases h
  · rw [hb] at h
    dsimp only at h
    have hc : checkNoDupEdges [] es = true :=
      (checkNoDupEdges_iff es []).mpr ⟨hes, by simp⟩
    rw [if_pos hc, Option.some.injEq] at h
    have hvset : vset = vs := by
      have := buildVertexSet_eq vs [] vset hb
      simpa using this
    subst hvset
    rw [← h]
    exact ⟨rfl, rfl, rfl, rfl, hvs, hes⟩

end InitLemmas

section AdjLemmas

variable {V : Type} [DecidableEq V]

/-- What the adjacency index of a processed edge list satisfies: distinct
keys, each present key bound to exactly the outgoing edges of that vertex in
order, and a key for every edge source. -/
def AdjSpec (es : List (Edge V)) (adj : List (V × List (Edge V))) : Prop :=
  (adj.map Prod.fst).Nodup ∧
  (∀ v l, alookup adj v = some l → l = outEdges es v) ∧
  (∀ e ∈ es, e.source_vertex ∈ adj.map Prod.fst)

theorem outEdges_singleton (e : Edge V) (v : V) :
    outEdges [e] v = if e.source_vertex = v then [e] else [] := by
  by_cases h : e.source_vertex = v <;> simp [outEdges, h]

theorem adjSpec_addOutgoing {pre : List (Edge V)} {adj : List (V × List (Edge V))}
    (h : AdjSpec pre adj) (e : Edge V) :
    AdjSpec (pre ++ [e]) (addOutgoing adj e) := by
  obtain ⟨hnd, hval, hmem⟩ := h
  unfold addOutgoing
  rcases hsrc : alookup adj e.source_vertex with _ | l
  · refine ⟨?_, ?_, ?_⟩
    · rw [List.map_append]
      simp only [List.map_cons, List.map_nil]
      rw [List.nodup_append]
      refine ⟨hnd, List.nodup_singleton _, ?_⟩
      intro a ha hb
      obtain rfl : a = e.source_vertex := List.mem_singleton.mp hb
      exact (alookup_eq_none_iff.mp hsrc) ha
    · intro v l' hl'
      by_cases hv : v = e.source_vertex
      · subst hv
        rw [alookup_append_of_none hsrc] at hl'
        simp only [alookup, if_pos rfl, Option.some.injEq] at hl'
        have hpre : outEdges pre e.source_vertex = [] := by
          rcases hp : outEdges pre e.source_vertex with _ | ⟨e', t⟩
          · rfl
          · have he' : e' ∈ outEdges pre e.source_vertex := by
              rw [hp]; exact List.mem_cons_self _ _
            obtain ⟨he'mem, he'src⟩ := mem_outEdges.mp he'
            have := hmem e' he'mem
            rw [he'src] at this
            exact absurd this (alookup_eq_none_iff.mp hsrc)
        have hl2 : l' = [e] := by
          simpa using hl'.symm
        rw [outEdges_append, hpre, outEdges_singleton, if_pos rfl, hl2]
        rfl
      · have hv' : alookup adj v = some l' := by
          rcases hlk : alookup adj v with _ | l''
          · rw [alookup_append_of_none hlk] at hl'
            simp only [alookup] at hl'
            rw [if_neg (fun hh : e.source_vertex = v => hv hh.symm)] at hl'
            cases hl'
          · rw [alookup_append_of_some hlk] at hl'
            injection hl' with hl2
            exact congrArg some hl2
        rw [hval v l' hv', outEdges_append, outEdges_singleton,
          if_neg (fun hh : e.source_vertex = v => hv hh.symm), List.append_nil]
    · intro e' he'
      rcases List.mem_append.mp he' with h1 | h1
      · rw [List.map_append]
        exact List.mem_append.mpr (Or.inl (hmem e' h1))
      · obtain rfl : e' = e := List.mem_singleton.mp h1
        rw [List.map_append]
        exact List.mem_append.mpr (Or.inr (by simp))
  · have hl : l = outEdges pre e.source_vertex := hval _ _ hsrc
    refine ⟨?_, ?_, ?_⟩
    · rw [aupdate_keys]
      exact hnd
    · intro v l' hl'
      by_cases hv : v = e.source_vertex
      · subst hv
        rw [alookup_aupdate_self _ hsrc, Option.some.injEq] at hl'
        rw [← hl', hl, outEdges_append, outEdges_singleton, if_pos rfl]
      · rw [alookup_aupdate_of_ne _ hv] at hl'
        rw [hval v l' hl', outEdges_append, outEdges_singleton,
          if_neg (fun hh : e.source_vertex = v => hv hh.symm), List.append_nil]
    · intro e' he'
      rw [aupdate_keys]
      rcases List.mem_append.mp he' with h1 | h1
      · exact hmem e' h1
      · obtain rfl : e' = e := List.mem_singleton.mp h1
        rw [← alookup_isSome_iff, hsrc]
        rfl

theorem adjSpec_foldl :
    ∀ (rest pre : List (Edge V)) (adj : List (V × List (Edge V))),
      AdjSpec pre adj → AdjSpec (pre ++ rest) (rest.foldl addOutgoing adj) := by
  intro rest
  induction rest with
  | nil =>
    intro pre adj h
    simpa using h
  | cons e t ih =>
    intro pre adj h
    have h1 : AdjSpec (pre ++ [e]) (addOutgoing adj e) := adjSpec_addOutgoing h e
    have h2 := ih (pre ++ [e]) (addOutgoing adj e) h1
    rw [List.append_assoc] at h2
    simpa using h2

theorem adjSpec_init (es : List (Edge V)) :
    AdjSpec es (es.foldl addOutgoing []) := by
  have h0 : AdjSpec ([] : List (Edge V)) ([] : List (V × List (Edge V))) := by
    refine ⟨List.nodup_nil, ?_, ?_⟩
    · intro v l hl
      simp [alookup] at hl
    · intro e he
      cases he
  simpa using adjSpec_foldl es [] [] h0

theorem adjSpec_none {es : List (Edge V)} {adj : List (V × List (Edge V))}
    (h : AdjSpec es adj) {v : V} (hv : alookup adj v = none) :
    outEdges es v = [] := by
  rcases hp : outEdges es v with _ | ⟨e', t⟩
  · rfl
  · have he' : e' ∈ outEdges es v := by rw [hp]; exact List.mem_cons_self _ _
    obtain ⟨he'mem, he'src⟩ := mem_outEdges.mp he'
    have := h.2.2 e' he'mem
    rw [he'src] at this
    exact absurd this (alookup_eq_none_iff.mp hv)

end AdjLemmas

section InvariantDefs

variable {V : Type} [DecidableEq V]

/-- Shape of an alt-free path as the search queues it: either one of the
start vertex's outgoing edges (pushed at line 334-336) or a `_PathSequence`
over the cell of a settled non-start vertex with one of its outgoing edges,
its cached distance computed from the cell's distance (pushed at
line 377-382).  This is exactly what the `_PathSequence` constructor
assertion (line 184-185) relies on. -/
def LeafOK (es : List (Edge V)) (s : V) (cells : List (V × Path V)) : Path V → Prop
  | .edge e => e ∈ es ∧ e.source_vertex = s
  | .seq u e d => e ∈ es ∧ e.source_vertex = u ∧ u ≠ s ∧
      ∃ pu, alookup cells u = some pu ∧ d = pu.get_distance + e.distance
  | .alt _ _ => False

/-- What each leaf of a settled cell's alternatives tree satisfies: it is a
queue-shaped path (or the implicit zero self path of the start vertex,
line 339) whose distance is the cell's distance and whose destination is
the cell's vertex.  This is what the `_PathAlternatives` constructor
assertions (line 244-249) rely on. -/
def LeafSpec (es : List (Edge V)) (s : V) (cells : List (V × Path V))
    (v : V) (dv : Int) (p : Path V) : Prop :=
  (LeafOK es s cells p ∨ (v = s ∧ p = .edge ⟨s, s, 0⟩)) ∧
  p.get_distance = dv ∧ p.get_destination_vertex = v

/-- A settled cell's content is an alternatives tree all of whose leaves
satisfy `LeafSpec`. -/
def TreeOK (es : List (Edge V)) (s : V) (cells : List (V × Path V))
    (v : V) (dv : Int) (p : Path V) : Prop :=
  ∀ l0 ∈ leaves p, LeafSpec es s cells v dv l0

/-- The queue path the search associates with an edge out of a settled
vertex whose cell distance is du: the plain edge when the source is the
start vertex (initial seeding), else the `_PathSequence` over the source's
cell. -/
def pv (s : V) (e : Edge V) (du : Int) : Path V :=
  if e.source_vertex = s then .edge e else .seq e.source_vertex e (du + e.distance)

/-- The edges a settled cell's leaves account for; for the start vertex the
first leaf is the implicit self path and is not counted. -/
def cellLeafEdges (s : V) (vp : V × Path V) : List (Edge V) :=
  if vp.1 = s then ((leaves vp.2).drop 1).map leafEdge
  else (leaves vp.2).map leafEdge

/-- Every edge the state accounts for, once per use: the edge of every
queued path and the edges of every settled cell's counted leaves. -/
def usedEdges (s : V) (st : SPState V) : List (Edge V) :=
  st.queue.map leafEdge ++ st.cells.bind (cellLeafEdges s)

/-- Distance-preserving extension of the cell map: every present cell is
still present with the same distance.  Settling appends a fresh cell and
merging an alternative keeps the cell's distance, so every search step
induces this relation. -/
def DistEq (cells cells' : List (V × Path V)) : Prop :=
  ∀ v p, alookup cells v = some p →
    ∃ p', alookup cells' v = some p' ∧ p'.get_distance = p.get_distance

/-- The full loop invariant of `calculate_shortest_paths`, relative to the
graph's edge list and the start vertex. -/
structure Inv (es : List (Edge V)) (s : V) (st : SPState V) : Prop where
  adjOK : AdjSpec es st.adj
  keysND : (st.cells.map Prod.fst).Nodup
  startMem : ∃ p0, alookup st.cells s = some p0 ∧ p0.get_distance = 0
  treeOK : ∀ v p, alookup st.cells v = some p →
    TreeOK es s st.cells v p.get_distance p
  queueOK : ∀ q ∈ st.queue, LeafOK es s st.cells q
  bound : ∃ B, 0 ≤ B ∧ (∀ q ∈ st.queue, B ≤ q.get_distance) ∧
    (∀ v p, alookup st.cells v = some p → p.get_distance ≤ B)
  minimal : ∀ v p, alookup st.cells v = some p →
    ∀ r w, RouteTo es s v r w → p.get_distance ≤ w
  nonemp : ∀ v p, alookup st.cells v = some p →
    ∃ f r, r ∈ Path.expandF st.cells f p
  covered : ∀ u pu, alookup st.cells u = some pu → ∀ e ∈ es, e.source_vertex = u →
    pv s e pu.get_distance ∈ st.queue ∨
    ∃ px, alookup st.cells e.destination_vertex = some px ∧
      (px.get_distance < pu.get_distance + e.distance ∨
       pv s e pu.get_distance ∈ leaves px)
  usedND : (usedEdges s st).Nodup
  usedSrc : ∀ e ∈ usedEdges s st, e ∈ es ∧ e.source_vertex ∈ st.cells.map Prod.fst
  synHead : ∀ p, alookup st.cells s = some p →
    (leaves p).head? = some (.edge ⟨s, s, 0⟩)

end InvariantDefs

section InvariantHelpers

variable {V : Type} [DecidableEq V]

theorem leafOK_not_alt {es : List (Edge V)} {s : V} {cells : List (V × Path V)}
    {p1 p2 : Path V} (h : LeafOK es s cells (.alt p1 p2)) : False := h

theorem leaves_of_leafOK {es : List (Edge V)} {s : V} {cells : List (V × Path V)}
    {q : Path V} (h : LeafOK es s cells q) : leaves q = [q] := by
  cases q with
  | edge e => rfl
  | seq b e d => rfl
  | alt p1 p2 => exact absurd h leafOK_not_alt

theorem treeOK_alt {es : List (Edge V)} {s : V} {cells : List (V × Path V)}
    {v : V} {dv : Int} {p1 p2 : Path V} :
    TreeOK es s cells v dv (.alt p1 p2) ↔
      TreeOK es s cells v dv p1 ∧ TreeOK es s cells v dv p2 := by
  unfold TreeOK
  simp only [leaves, List.mem_append]
  constructor
  · intro h
    exact ⟨fun l hl => h l (Or.inl hl), fun l hl => h l (Or.inr hl)⟩
  · rintro ⟨h1, h2⟩ l (hl | hl)
    · exact h1 l hl
    · exact h2 l hl

theorem treeOK_root {es : List (Edge V)} {s : V} {cells : List (V × Path V)}
    {v : V} {dv : Int} {p : Path V} (h : TreeOK es s cells v dv p) :
    p.get_distance = dv ∧ p.get_destination_vertex = v := by
  induction p with
  | edge e =>
    have := h (.edge e) (by simp [leaves])
    exact ⟨this.2.1, this.2.2⟩
  | seq b e d =>
    have := h (.seq b e d) (by simp [leaves])
    exact ⟨this.2.1, this.2.2⟩
  | alt p1 p2 ih1 ih2 =>
    obtain ⟨h1, _⟩ := treeOK_alt.mp h
    exact ih1 h1

theorem leafOK_distEq {es : List (Edge V)} {s : V} {cells cells' : List (V × Path V)}
    (hde : DistEq cells cells') {p : Path V} (h : LeafOK es s cells p) :
    LeafOK es s cells' p := by
  cases p with
  | edge e => exact h
  | seq u e d =>
    obtain ⟨he, hsrc, hns, pu, hpu, hd⟩ := h
    obtain ⟨pu', hpu', hdist⟩ := hde u pu hpu
    exact ⟨he, hsrc, hns, pu', hpu', by rw [hd, hdist]⟩
  | alt p1 p2 => exact absurd h leafOK_not_alt

theorem treeOK_distEq {es : List (Edge V)} {s : V} {cells cells' : List (V × Path V)}
    (hde : DistEq cells cells') {v : V} {dv : Int} {p : Path V}
    (h : TreeOK es s cells v dv p) : TreeOK es s cells' v dv p := by
  intro l hl
  obtain ⟨hshape, hdist, hdest⟩ := h l hl
  refine ⟨?_, hdist, hdest⟩
  rcases hshape with h1 | h1
  · exact Or.inl (leafOK_distEq hde h1)
  · exact Or.inr h1

theorem distEq_append (cells ext : List (V × Path V)) :
    DistEq cells (cells ++ ext) :=
  fun _ p h => ⟨p, alookup_append_of_some h, rfl⟩

theorem distEq_upgrade {cells : List (V × Path V)} {x : V} {px q : Path V}
    (hx : alookup cells x = some px) :
    DistEq cells (aupdate cells x (.alt px q)) := by
  intro v p h
  by_cases hv : v = x
  · subst hv
    rw [hx] at h
    injection h with h
    subst h
    exact ⟨.alt px q, alookup_aupdate_self _ hx, rfl⟩
  · exact ⟨p, by rw [alookup_aupdate_of_ne _ hv]; exact h, rfl⟩

theorem pv_get_distance {s : V} {e : Edge V} {du : Int}
    (h : e.source_vertex = s → du = 0) :
    (pv s e du).get_distance = du + e.distance := by
  unfold pv
  by_cases hs : e.source_vertex = s
  · rw [if_pos hs, h hs]
    simp [Path.get_distance]
  · rw [if_neg hs]
    rfl

theorem pv_get_destination {s : V} {e : Edge V} {du : Int} :
    (pv s e du).get_destination_vertex = e.destination_vertex := by
  unfold pv
  by_cases hs : e.source_vertex = s
  · rw [if_pos hs]; rfl
  · rw [if_neg hs]; rfl

theorem pv_leafEdge {s : V} {e : Edge V} {du : Int} : leafEdge (pv s e du) = e := by
  unfold pv
  by_cases hs : e.source_vertex = s
  · rw [if_pos hs]; rfl
  · rw [if_neg hs]; rfl

theorem pv_not_alt {s : V} {e : Edge V} {du : Int} {p1 p2 : Path V}
    (h : pv s e du = .alt p1 p2) : False := by
  unfold pv at h
  by_cases hs : e.source_vertex = s
  · rw [if_pos hs] at h; cases h
  · rw [if_neg hs] at h; cases h

theorem routeTo_getLast {es : List (Edge V)} {s v : V} {r : List V} {w : Int}
    (h : RouteTo es s v r w) : ∃ r0, r = r0 ++ [v] := by
  induction h with
  | single he hsrc => exact ⟨[], rfl⟩
  | snoc hr he hsrc ih => exact ⟨_, rfl⟩

theorem routeTo_mem_last {es : List (Edge V)} {s v : V} {r : List V} {w : Int}
    (h : RouteTo es s v r w) : v ∈ r := by
  obtain ⟨r0, rfl⟩ := routeTo_getLast h
  simp

theorem routeTo_nonneg {es : List (Edge V)} {s v : V} {r : List V} {w : Int}
    (hw : ∀ e ∈ es, 0 ≤ e.distance) (h : RouteTo es s v r w) : 0 ≤ w := by
  induction h with
  | single he hsrc => exact hw _ he
  | snoc hr he hsrc ih => exact add_nonneg ih (hw _ he)

end InvariantHelpers

section CoreLemmas

variable {V : Type} [DecidableEq V]

/-- When a path is popped, its distance bounds the weight of every route to
every not-yet-settled vertex: the classical Dijkstra frontier argument,
using non-negative weights, the queue coverage of the settled frontier and
the minimality of settled distances. -/
theorem route_pop_bound {es : List (Edge V)} {s : V} {st : SPState V}
    (hw : ∀ e ∈ es, 0 ≤ e.distance) (hInv : Inv es s st)
    {q : Path V} {rest : List (Path V)} (hpop : popMin st.queue = some (q, rest)) :
    ∀ {v : V} {r : List V} {w : Int}, RouteTo es s v r w →
      alookup st.cells v = none → q.get_distance ≤ w := by
  intro v r w hroute
  induction hroute with
  | @single e he hsrc =>
    intro hnone
    obtain ⟨p0, hp0, hp0d⟩ := hInv.startMem
    rcases hInv.covered s p0 hp0 e he hsrc with hq | ⟨px, hpx, _⟩
    · have hle := popMin_le hpop _ hq
      rw [pv_get_distance (fun _ => hp0d), hp0d, zero_add] at hle
      exact hle
    · rw [hnone] at hpx
      cases hpx
  | @snoc u r0 w0 e hr he hsrc ih =>
    intro hnone
    rcases hu : alookup st.cells u with _ | pu
    · have h1 := ih hu
      have h2 : (0:Int) ≤ e.distance := hw e he
      linarith
    · have hmin : pu.get_distance ≤ w0 := hInv.minimal u pu hu r0 w0 hr
      rcases hInv.covered u pu hu e he hsrc with hq | ⟨px, hpx, _⟩
      · have hle := popMin_le hpop _ hq
        have hpvd : (pv s e pu.get_distance).get_distance =
            pu.get_distance + e.distance := by
          apply pv_get_distance
          intro hes
          have hus : u = s := hsrc.symm.trans hes
          obtain ⟨p0, hp0, hp0d⟩ := hInv.startMem
          rw [hus] at hu
          rw [hu] at hp0
          injection hp0 with hp0e
          rw [← hp0e] at hp0d
          exact hp0d
        rw [hpvd] at hle
        linarith
      · rw [hnone] at hpx
        cases hpx

/-- Soundness of lazy expansion: under the tree invariant, every route a
settled cell (or any path whose leaves satisfy the invariant) yields is
either the implicit self route of the start vertex or a genuine route of
the cell's distance ending at the cell's vertex, never passing through the
start vertex before its final element. -/
theorem cells_sound {es : List (Edge V)} {s : V} {cells : List (V × Path V)}
    (hc : ∀ v p, alookup cells v = some p → TreeOK es s cells v p.get_distance p) :
    ∀ (f : Nat) (v : V) (dv : Int) (p : Path V), TreeOK es s cells v dv p →
      ∀ r ∈ Path.expandF cells f p,
        (v = s ∧ r = [s]) ∨ (RouteTo es s v r dv ∧ s ∉ r.dropLast) := by
  intro f
  induction f with
  | zero =>
    intro v dv p _ r hr
    simp [Path.expandF] at hr
  | succ f ih =>
    intro v dv p htree r hr
    cases p with
    | edge e =>
      simp only [Path.expandF, List.mem_singleton] at hr
      subst hr
      obtain ⟨hshape, hdist, hdest⟩ := htree (.edge e) (by simp [leaves])
      simp only [Path.get_distance] at hdist
      simp only [Path.get_destination_vertex] at hdest
      rcases hshape with ⟨he, hsrc⟩ | ⟨hvs, hsyn⟩
      · right
        refine ⟨?_, by simp⟩
        have h0 := RouteTo.single he hsrc
        rw [hdist] at h0
        rw [← hdest]
        exact h0
      · left
        have he2 : e = ⟨s, s, 0⟩ := by injection hsyn
        subst he2
        exact ⟨hvs, rfl⟩
    | seq b e d =>
      simp only [Path.expandF] at hr
      rcases hb : alookup cells b with _ | pb
      · rw [hb] at hr
        cases hr
      · rw [hb] at hr
        obtain ⟨r0, hr0, rfl⟩ := List.mem_map.mp hr
        obtain ⟨hshape, hdist, hdest⟩ := htree (.seq b e d) (by simp [leaves])
        simp only [Path.get_distance] at hdist
        simp only [Path.get_destination_vertex] at hdest
        rcases hshape with ⟨he, hsrc, hbs, pu, hpu, hd⟩ | ⟨_, hsyn⟩
        · have hpb : pb = pu := by
            rw [hb] at hpu
            injection hpu
          subst hpb
          have hsub := ih b pb.get_distance pb (hc b pb hb) r0 hr0
          rcases hsub with ⟨hbs2, _⟩ | ⟨hroute, hdrop⟩
          · exact absurd hbs2 hbs
          · right
            constructor
            · have h0 := RouteTo.snoc hroute he hsrc
              have hw0 : pb.get_distance + e.distance = dv := by
                rw [← hd]
                exact hdist
              rw [hw0] at h0
              rw [← hdest]
              exact h0
            · rw [List.dropLast_concat]
              obtain ⟨r00, rfl⟩ := routeTo_getLast hroute
              rw [List.dropLast_concat] at hdrop
              intro hmem
              rcases List.mem_append.mp hmem with h1 | h1
              · exact hdrop h1
              · exact hbs (List.mem_singleton.mp h1).symm
        · cases hsyn
    | alt p1 p2 =>
      simp only [Path.expandF, List.mem_append] at hr
      obtain ⟨h1, h2⟩ := treeOK_alt.mp htree
      rcases hr with hr | hr
      · exact ih v dv p1 h1 r hr
      · exact ih v dv p2 h2 r hr

end CoreLemmas

section UsedEdgesLemmas

variable {V : Type} [DecidableEq V]

theorem cellLeafEdges_upgrade {s x : V} {px q : Path V}
    (hq : leaves q = [q]) (hpx : leaves px ≠ []) :
    cellLeafEdges s (x, Path.alt px q) = cellLeafEdges s (x, px) ++ [leafEdge q] := by
  unfold cellLeafEdges
  by_cases hs : x = s
  · simp only [hs, if_pos rfl]
    have h1 : leaves (Path.alt px q) = leaves px ++ [q] := by
      simp [leaves, hq]
    rw [h1]
    have h2 : (leaves px ++ [q]).drop 1 = (leaves px).drop 1 ++ [q] := by
      apply List.drop_append_of_le_length
      rcases hl : leaves px with _ | ⟨a, t⟩
      · exact absurd hl hpx
      · simp
    rw [h2, List.map_append]
    rfl
  · simp only [if_neg hs]
    have h1 : leaves (Path.alt px q) = leaves px ++ [q] := by
      simp [leaves, hq]
    rw [h1, List.map_append]
    rfl

theorem bind_aupdate_perm {x : V} {px vNew : Path V}
    {f : V × Path V → List (Edge V)} {ext : List (Edge V)} :
    ∀ (l : List (V × Path V)), alookup l x = some px →
      f (x, vNew) = f (x, px) ++ ext →
      ((aupdate l x vNew).bind f).Perm (l.bind f ++ ext) := by
  intro l
  induction l with
  | nil => intro h _; simp [alookup] at h
  | cons y t ih =>
    obtain ⟨k, a⟩ := y
    intro h hdiff
    by_cases hk : k = x
    · subst hk
      simp only [alookup, if_pos rfl] at h
      injection h with h
      subst h
      have ha : aupdate ((k, a) :: t) k vNew = (k, vNew) :: t := by
        simp [aupdate]
      rw [ha]
      have hb1 : ((k, vNew) :: t).bind f = f (k, vNew) ++ t.bind f := by
        simp
      have hb2 : ((k, a) :: t).bind f = f (k, a) ++ t.bind f := by
        simp
      rw [hb1, hb2, hdiff, List.append_assoc, List.append_assoc]
      exact List.Perm.append_left _ List.perm_append_comm
    · simp only [alookup, if_neg hk] at h
      have ha : aupdate ((k, a) :: t) x vNew = (k, a) :: aupdate t x vNew := by
        simp [aupdate, hk]
      rw [ha]
      have hb1 : ((k, a) :: aupdate t x vNew).bind f =
          f (k, a) ++ (aupdate t x vNew).bind f := by
        simp
      have hb2 : ((k, a) :: t).bind f = f (k, a) ++ t.bind f := by
        simp
      rw [hb1, hb2, List.append_assoc]
      exact List.Perm.append_left _ (ih h hdiff)

theorem usedEdges_pop_perm {s : V} {st : SPState V} {q : Path V}
    {rest : List (Path V)} (hpop : popMin st.queue = some (q, rest)) :
    (usedEdges s st).Perm
      (leafEdge q :: (rest.map leafEdge ++ st.cells.bind (cellLeafEdges s))) := by
  have h1 : (st.queue.map leafEdge).Perm (leafEdge q :: rest.map leafEdge) :=
    (popMin_perm hpop).map leafEdge
  have h2 := h1.append_right (st.cells.bind (cellLeafEdges s))
  exact h2

end UsedEdgesLemmas

section StepPreservation

variable {V : Type} [DecidableEq V]

/-- Preservation of the invariant by the dominated-path branch (a popped
path to a settled vertex with strictly larger distance is discarded,
line 368-369). -/
theorem inv_skip {es : List (Edge V)} {s : V} {st : SPState V}
    (hInv : Inv es s st) {q : Path V} {rest : List (Path V)}
    (hpop : popMin st.queue = some (q, rest))
    {pExist : Path V}
    (hcell : alookup st.cells q.get_destination_vertex = some pExist)
    (hlt : pExist.get_distance < q.get_distance) :
    Inv es s ⟨st.cells, rest, st.adj⟩ := by
  have hrest : ∀ x ∈ rest, x ∈ st.queue := popMin_rest_subset hpop
  refine ⟨hInv.adjOK, hInv.keysND, hInv.startMem, hInv.treeOK, ?_, ?_, hInv.minimal,
    hInv.nonemp, ?_, ?_, ?_, hInv.synHead⟩
  · intro x hx
    exact hInv.queueOK x (hrest x hx)
  · obtain ⟨B, hB0, hBq, hBc⟩ := hInv.bound
    exact ⟨B, hB0, fun x hx => hBq x (hrest x hx), hBc⟩
  · intro u pu hpu e he hsrc
    rcases hInv.covered u pu hpu e he hsrc with hq | hres
    · by_cases hpveq : pv s e pu.get_distance = q
      · right
        have hdest : e.destination_vertex = q.get_destination_vertex := by
          rw [← hpveq]
          exact pv_get_destination.symm
        refine ⟨pExist, by rw [hdest]; exact hcell, Or.inl ?_⟩
        have hpvd : (pv s e pu.get_distance).get_distance =
            pu.get_distance + e.distance := by
          apply pv_get_distance
          intro hes
          have hus : u = s := hsrc.symm.trans hes
          obtain ⟨p0, hp0, hp0d⟩ := hInv.startMem
          rw [hus] at hpu
          rw [hpu] at hp0
          injection hp0 with hp0e
          rw [← hp0e] at hp0d
          exact hp0d
        rw [hpveq] at hpvd
        rw [← hpvd]
        exact hlt
      · left
        have hmem : pv s e pu.get_distance ∈ q :: rest := (popMin_perm hpop).mem_iff.mp hq
        rcases List.mem_cons.mp hmem with h1 | h1
        · exact absurd h1 hpveq
        · exact h1
    · exact Or.inr hres
  · have hperm := @usedEdges_pop_perm V _ s _ _ _ hpop
    have hnd := hperm.nodup_iff.mp hInv.usedND
    have : (usedEdges s ⟨st.cells, rest, st.adj⟩) =
        rest.map leafEdge ++ st.cells.bind (cellLeafEdges s) := rfl
    rw [this]
    exact (List.nodup_cons.mp hnd).2
  · intro e he
    have hsub : e ∈ usedEdges s st := by
      have hperm := @usedEdges_pop_perm V _ s _ _ _ hpop
      apply hperm.mem_iff.mpr
      exact List.mem_cons_of_mem _ he
    exact hInv.usedSrc e hsub

end StepPreservation

section UpgradePreservation

variable {V : Type} [DecidableEq V]

theorem head?_append_of_ne_nil {α : Type} {l l' : List α} (h : l ≠ []) :
    (l ++ l').head? = l.head? := by
  rcases l with _ | ⟨a, t⟩
  · exact absurd rfl h
  · rfl

/-- Preservation of the invariant by the tie branch: a popped path whose
distance equals the settled distance of its destination is merged into the
destination's cell as a `_PathAlternatives` over the previous content
(lines 356-367). -/
theorem inv_upgrade {es : List (Edge V)} {s : V} {st : SPState V}
    (hInv : Inv es s st) {q : Path V} {rest : List (Path V)}
    (hpop : popMin st.queue = some (q, rest))
    {pExist : Path V}
    (hcell : alookup st.cells q.get_destination_vertex = some pExist)
    (heq : pExist.get_distance = q.get_distance) :
    Inv es s ⟨aupdate st.cells q.get_destination_vertex (.alt pExist q),
      rest, st.adj⟩ := by
  set x := q.get_destination_vertex with hxdef
  set cells' := aupdate st.cells x (.alt pExist q) with hcdef
  have hde : DistEq st.cells cells' := distEq_upgrade hcell
  have hqleaf : LeafOK es s st.cells q := hInv.queueOK q (popMin_mem hpop)
  have hlv : leaves q = [q] := leaves_of_leafOK hqleaf
  have hrest : ∀ y ∈ rest, y ∈ st.queue := popMin_rest_subset hpop
  have hlook_x : alookup cells' x = some (.alt pExist q) :=
    alookup_aupdate_self _ hcell
  have hlook_ne : ∀ v, v ≠ x → alookup cells' v = alookup st.cells v :=
    fun v hv => alookup_aupdate_of_ne _ hv
  have hgetdet : ∀ {v : V} {a b : Path V}, alookup st.cells v = some a →
      alookup st.cells v = some b → a = b := by
    intro v a b h1 h2
    rw [h1] at h2
    injection h2
  refine ⟨hInv.adjOK, ?_, ?_, ?_, ?_, ?_, ?_, ?_, ?_, ?_, ?_, ?_⟩
  · show ((aupdate st.cells x (.alt pExist q)).map Prod.fst).Nodup
    rw [aupdate_keys]
    exact hInv.keysND
  · obtain ⟨p0, hp0, hp0d⟩ := hInv.startMem
    by_cases hs : s = x
    · subst hs
      refine ⟨.alt pExist q, hlook_x, ?_⟩
      have : p0 = pExist := hgetdet hp0 hcell
      show pExist.get_distance = 0
      rw [← this]
      exact hp0d
    · exact ⟨p0, by rw [hlook_ne s hs]; exact hp0, hp0d⟩
  · intro v p' hp'
    by_cases hv : v = x
    · subst hv
      rw [hlook_x] at hp'
      injection hp' with hp'
      subst hp'
      rw [treeOK_alt]
      constructor
      · exact treeOK_distEq hde (hInv.treeOK x pExist hcell)
      · intro l hl
        rw [hlv, List.mem_singleton] at hl
        subst hl
        exact ⟨Or.inl (leafOK_distEq hde hqleaf), heq.symm, rfl⟩
    · rw [hlook_ne v hv] at hp'
      exact treeOK_distEq hde (hInv.treeOK v p' hp')
  · intro y hy
    exact leafOK_distEq hde (hInv.queueOK y (hrest y hy))
  · obtain ⟨B, hB0, hBq, hBc⟩ := hInv.bound
    refine ⟨B, hB0, fun y hy => hBq y (hrest y hy), ?_⟩
    intro v p' hp'
    by_cases hv : v = x
    · subst hv
      rw [hlook_x] at hp'
      injection hp' with hp'
      subst hp'
      show pExist.get_distance ≤ B
      exact hBc _ pExist hcell
    · rw [hlook_ne v hv] at hp'
      exact hBc v p' hp'
  · intro v p' hp' r w hroute
    by_cases hv : v = x
    · subst hv
      rw [hlook_x] at hp'
      injection hp' with hp'
      subst hp'
      show pExist.get_distance ≤ w
      exact hInv.minimal _ pExist hcell r w hroute
    · rw [hlook_ne v hv] at hp'
      exact hInv.minimal v p' hp' r w hroute
  · intro v p' hp'
    by_cases hv : v = x
    · subst hv
      rw [hlook_x] at hp'
      injection hp' with hp'
      subst hp'
      obtain ⟨f, r, hr⟩ := hInv.nonemp _ pExist hcell
      refine ⟨2 * f + 1, r, ?_⟩
      have h1 := @expandF_upgrade V _ _ _ _ q hcell f pExist r hr
      show r ∈ Path.expandF cells' (2 * f + 1) (.alt pExist q)
      simp only [Path.expandF]
      exact List.mem_append.mpr (Or.inl h1)
    · rw [hlook_ne v hv] at hp'
      obtain ⟨f, r, hr⟩ := hInv.nonemp v p' hp'
      exact ⟨2 * f, r, @expandF_upgrade V _ _ _ _ q hcell f p' r hr⟩
  · intro u pu' hpu' e he hsrc
    obtain ⟨pu, hpu, hdu⟩ : ∃ pu, alookup st.cells u = some pu ∧
        pu'.get_distance = pu.get_distance := by
      by_cases hu : u = x
      · subst hu
        rw [hlook_x] at hpu'
        injection hpu' with hpu'
        subst hpu'
        exact ⟨pExist, hcell, rfl⟩
      · rw [hlook_ne u hu] at hpu'
        exact ⟨pu', hpu', rfl⟩
    rw [hdu]
    rcases hInv.covered u pu hpu e he hsrc with hq2 | ⟨px, hpx, hcase⟩
    · by_cases hpveq : pv s e pu.get_distance = q
      · right
        have hdest : e.destination_vertex = x := by
          rw [← @pv_get_destination V _ s e pu.get_distance, hpveq]
        refine ⟨.alt pExist q, by rw [hdest]; exact hlook_x, Or.inr ?_⟩
        show pv s e pu.get_distance ∈ leaves (Path.alt pExist q)
        have : leaves (Path.alt pExist q) = leaves pExist ++ [q] := by
          simp [leaves, hlv]
        rw [this, hpveq]
        exact List.mem_append.mpr (Or.inr (List.mem_singleton.mpr rfl))
      · left
        have hmem : pv s e pu.get_distance ∈ q :: rest :=
          (popMin_perm hpop).mem_iff.mp hq2
        rcases List.mem_cons.mp hmem with h1 | h1
        · exact absurd h1 hpveq
        · exact h1
    · right
      by_cases hdx : e.destination_vertex = x
      · have hpxe : px = pExist := by
          rw [hdx] at hpx
          exact hgetdet hpx hcell
        subst hpxe
        refine ⟨.alt px q, by rw [hdx]; exact hlook_x, ?_⟩
        rcases hcase with h1 | h1
        · exact Or.inl h1
        · refine Or.inr ?_
          have : leaves (Path.alt px q) = leaves px ++ [q] := by
            simp [leaves, hlv]
          rw [this]
          exact List.mem_append.mpr (Or.inl h1)
      · refine ⟨px, by rw [hlook_ne _ hdx]; exact hpx, hcase⟩
  · have hdiff : cellLeafEdges s (x, Path.alt pExist q) =
        cellLeafEdges s (x, pExist) ++ [leafEdge q] :=
      cellLeafEdges_upgrade hlv leaves_ne_nil
    have hperm1 : ((aupdate st.cells x (.alt pExist q)).bind (cellLeafEdges s)).Perm
        (st.cells.bind (cellLeafEdges s) ++ [leafEdge q]) :=
      bind_aupdate_perm st.cells hcell hdiff
    have hperm2 : (usedEdges s ⟨cells', rest, st.adj⟩).Perm
        (rest.map leafEdge ++ (st.cells.bind (cellLeafEdges s) ++ [leafEdge q])) := by
      show (rest.map leafEdge ++ cells'.bind (cellLeafEdges s)).Perm _
      exact List.Perm.append_left _ hperm1
    have hperm3 : (rest.map leafEdge ++ (st.cells.bind (cellLeafEdges s) ++ [leafEdge q])).Perm
        (leafEdge q :: (rest.map leafEdge ++ st.cells.bind (cellLeafEdges s))) := by
      rw [← List.append_assoc]
      exact List.perm_append_singleton _ _
    have hnd : (leafEdge q :: (rest.map leafEdge ++
        st.cells.bind (cellLeafEdges s))).Nodup :=
      (usedEdges_pop_perm hpop).nodup_iff.mp hInv.usedND
    exact ((hperm2.trans hperm3).nodup_iff).mpr hnd
  · intro e he
    have hdiff : cellLeafEdges s (x, Path.alt pExist q) =
        cellLeafEdges s (x, pExist) ++ [leafEdge q] :=
      cellLeafEdges_upgrade hlv leaves_ne_nil
    have hperm1 : ((aupdate st.cells x (.alt pExist q)).bind (cellLeafEdges s)).Perm
        (st.cells.bind (cellLeafEdges s) ++ [leafEdge q]) :=
      bind_aupdate_perm st.cells hcell hdiff
    have he2 : e ∈ usedEdges s st := by
      unfold usedEdges at he ⊢
      rcases List.mem_append.mp he with h1 | h1
      · exact List.mem_append.mpr
          (Or.inl (List.mem_map.mpr (by
            obtain ⟨y, hy, hye⟩ := List.mem_map.mp h1
            exact ⟨y, hrest y hy, hye⟩)))
      · have h2 := hperm1.mem_iff.mp h1
        rcases List.mem_append.mp h2 with h3 | h3
        · exact List.mem_append.mpr (Or.inr h3)
        · obtain rfl : e = leafEdge q := List.mem_singleton.mp h3
          exact List.mem_append.mpr
            (Or.inl (List.mem_map.mpr ⟨q, popMin_mem hpop, rfl⟩))
    obtain ⟨hes, hsrc⟩ := hInv.usedSrc e he2
    refine ⟨hes, ?_⟩
    show e.source_vertex ∈ (aupdate st.cells x (.alt pExist q)).map Prod.fst
    rw [aupdate_keys]
    exact hsrc
  · intro p' hp'
    by_cases hs : s = x
    · rw [hs, hlook_x] at hp'
      injection hp' with hp'
      subst hp'
      have h1 : leaves (Path.alt pExist q) = leaves pExist ++ leaves q := rfl
      rw [h1, head?_append_of_ne_nil leaves_ne_nil]
      exact hInv.synHead pExist (by rw [hs]; exact hcell)
    · rw [hlook_ne s hs] at hp'
      exact hInv.synHead p' hp'

end UpgradePreservation

section SettlePreservation

variable {V : Type} [DecidableEq V]

theorem bind_append_one {A B : Type} (f : A → List B) (l : List A) (y : A) :
    (l ++ [y]).bind f = l.bind f ++ f y := by
  induction l with
  | nil => simp
  | cons a t ih => simp [ih]

/-- A queue-shaped path has a route to yield: either its single edge route
or a route of its base cell (which always has one) extended by its edge. -/
theorem leafOK_nonemp {es : List (Edge V)} {s : V} {cells cells' : List (V × Path V)}
    {q : Path V} (hcle : CellsLE cells cells') (h : LeafOK es s cells q)
    (hnon : ∀ u pu, alookup cells u = some pu → ∃ f r, r ∈ Path.expandF cells f pu) :
    ∃ f r, r ∈ Path.expandF cells' f q := by
  cases q with
  | edge e => exact ⟨1, [e.destination_vertex], by simp [Path.expandF]⟩
  | seq u e d =>
    obtain ⟨hees, hesrc, hus, pu, hpu, hd⟩ := h
    obtain ⟨f, r, hr⟩ := hnon u pu hpu
    refine ⟨f + 1, r ++ [e.destination_vertex], ?_⟩
    simp only [Path.expandF]
    rw [hcle u pu hpu]
    exact List.mem_map.mpr ⟨r, (expandF_cellsLE hcle f pu).subset hr, rfl⟩
  | alt p1 p2 => exact absurd h leafOK_not_alt

/-- Preservation of the invariant by the settle branch: a popped path to a
vertex with no settled entry becomes that vertex's cell, and a
`_PathSequence` over this cell is pushed for each of its outgoing edges
(lines 371-382). -/
theorem inv_settle {es : List (Edge V)} {s : V} {st : SPState V}
    (hw : ∀ e ∈ es, 0 ≤ e.distance) (hesND : (es.map edgeKey).Nodup)
    (hInv : Inv es s st) {q : Path V} {rest : List (Path V)}
    (hpop : popMin st.queue = some (q, rest))
    (hnone : alookup st.cells q.get_destination_vertex = none) :
    Inv es s ⟨st.cells ++ [(q.get_destination_vertex, q)],
      rest ++ (dget st.adj q.get_destination_vertex).1.map
        (fun e => Path.seq q.get_destination_vertex e (q.get_distance + e.distance)),
      (dget st.adj q.get_destination_vertex).2⟩ := by
  set x := q.get_destination_vertex with hxdef
  set cells' := st.cells ++ [(x, q)] with hcdef
  have hxs : x ≠ s := by
    intro h
    obtain ⟨p0, hp0, _⟩ := hInv.startMem
    rw [h] at hnone
    rw [hnone] at hp0
    cases hp0
  have hout : (dget st.adj x).1 = outEdges es x := by
    rcases ha : alookup st.adj x with _ | l
    · simp only [dget, ha]
      exact (adjSpec_none hInv.adjOK ha).symm
    · simp only [dget, ha]
      exact hInv.adjOK.2.1 x l ha
  have hcle : CellsLE st.cells cells' := cellsLE_append _ _
  have hde : DistEq st.cells cells' := distEq_append _ _
  have hlookup_x : alookup cells' x = some q := by
    rw [alookup_append_of_none hnone]
    simp [alookup]
  have hrev : ∀ v p', alookup cells' v = some p' →
      alookup st.cells v = some p' ∨ (v = x ∧ p' = q) := by
    intro v p' h
    rcases hv : alookup st.cells v with _ | a
    · rw [alookup_append_of_none hv] at h
      simp only [alookup] at h
      by_cases hvx : x = v
      · rw [if_pos hvx] at h
        injection h with h
        exact Or.inr ⟨hvx.symm, h.symm⟩
      · rw [if_neg hvx] at h
        cases h
    · rw [alookup_append_of_some hv] at h
      injection h with h
      refine Or.inl ?_
      rw [← h]
  have hql : LeafOK es s st.cells q := hInv.queueOK q (popMin_mem hpop)
  have hlvq : leaves q = [q] := leaves_of_leafOK hql
  have hrest : ∀ y ∈ rest, y ∈ st.queue := popMin_rest_subset hpop
  refine ⟨?_, ?_, ?_, ?_, ?_, ?_, ?_, ?_, ?_, ?_, ?_, ?_⟩
  · -- adjacency spec after the possible defaultdict insertion
    rcases ha : alookup st.adj x with _ | l
    · simp only [dget, ha]
      obtain ⟨hnd, hval, hmem⟩ := hInv.adjOK
      refine ⟨?_, ?_, ?_⟩
      · rw [List.map_append]
        simp only [List.map_cons, List.map_nil]
        rw [List.nodup_append]
        refine ⟨hnd, List.nodup_singleton _, ?_⟩
        intro a hha hb
        obtain rfl : a = x := List.mem_singleton.mp hb
        exact (alookup_eq_none_iff.mp ha) hha
      · intro v l' hl'
        by_cases hvx : v = x
        · subst hvx
          rw [alookup_append_of_none ha] at hl'
          have hl2 : l' = [] := by
            simpa [alookup] using hl'.symm
          rw [hl2]
          exact (adjSpec_none hInv.adjOK ha).symm
        · rcases hlk : alookup st.adj v with _ | l2
          · rw [alookup_append_of_none hlk] at hl'
            simp only [alookup] at hl'
            rw [if_neg (fun hh : x = v => hvx hh.symm)] at hl'
            cases hl'
          · rw [alookup_append_of_some hlk] at hl'
            injection hl' with hl2
            rw [← hl2]
            exact hval v l2 hlk
      · intro e he
        rw [List.map_append]
        exact List.mem_append.mpr (Or.inl (hmem e he))
    · simpa only [dget, ha] using hInv.adjOK
  · show ((st.cells ++ [(x, q)]).map Prod.fst).Nodup
    rw [List.map_append]
    simp only [List.map_cons, List.map_nil]
    rw [List.nodup_append]
    refine ⟨hInv.keysND, List.nodup_singleton _, ?_⟩
    intro a hha hb
    obtain rfl : a = x := List.mem_singleton.mp hb
    exact (alookup_eq_none_iff.mp hnone) hha
  · obtain ⟨p0, hp0, hp0d⟩ := hInv.startMem
    exact ⟨p0, hcle s p0 hp0, hp0d⟩
  · intro v p' hp'
    rcases hrev v p' hp' with h1 | ⟨rfl, rfl⟩
    · exact treeOK_distEq hde (hInv.treeOK v p' h1)
    · intro l hl
      rw [hlvq, List.mem_singleton] at hl
      subst hl
      exact ⟨Or.inl (leafOK_distEq hde hql), rfl, rfl⟩
  · intro y hy
    rcases List.mem_append.mp hy with h1 | h1
    · exact leafOK_distEq hde (hInv.queueOK y (hrest y h1))
    · rw [hout] at h1
      obtain ⟨e, hemem, rfl⟩ := List.mem_map.mp h1
      obtain ⟨hees, hesrc⟩ := mem_outEdges.mp hemem
      exact ⟨hees, hesrc, hesrc ▸ hxs, q, hlookup_x, rfl⟩
  · obtain ⟨B, hB0, hBq, hBc⟩ := hInv.bound
    refine ⟨q.get_distance, hB0.trans (hBq q (popMin_mem hpop)), ?_, ?_⟩
    · intro y hy
      rcases List.mem_append.mp hy with h1 | h1
      · exact popMin_le hpop y (hrest y h1)
      · rw [hout] at h1
        obtain ⟨e, hemem, rfl⟩ := List.mem_map.mp h1
        obtain ⟨hees, _⟩ := mem_outEdges.mp hemem
        show q.get_distance ≤ q.get_distance + e.distance
        have := hw e hees
        linarith
    · intro v p' hp'
      rcases hrev v p' hp' with h1 | ⟨rfl, rfl⟩
      · exact (hBc v p' h1).trans (hBq q (popMin_mem hpop))
      · exact le_refl _
  · intro v p' hp' r w hroute
    rcases hrev v p' hp' with h1 | ⟨rfl, rfl⟩
    · exact hInv.minimal v p' h1 r w hroute
    · exact route_pop_bound hw hInv hpop hroute hnone
  · intro v p' hp'
    rcases hrev v p' hp' with h1 | ⟨rfl, rfl⟩
    · obtain ⟨f, r, hr⟩ := hInv.nonemp v p' h1
      exact ⟨f, r, (expandF_cellsLE hcle f p').subset hr⟩
    · exact leafOK_nonemp hcle hql hInv.nonemp
  · intro u pu' hpu' e he hsrc
    rcases hrev u pu' hpu' with h1 | ⟨rfl, hpq⟩
    · rcases hInv.covered u pu' h1 e he hsrc with hq2 | ⟨px, hpx, hcase⟩
      · by_cases hpveq : pv s e pu'.get_distance = q
        · right
          have hdest : e.destination_vertex = x := by
            rw [← @pv_get_destination V _ s e pu'.get_distance, hpveq]
          refine ⟨q, by rw [hdest]; exact hlookup_x, Or.inr ?_⟩
          rw [hlvq, hpveq]
          exact List.mem_singleton.mpr rfl
        · left
          have hmem : pv s e pu'.get_distance ∈ q :: rest :=
            (popMin_perm hpop).mem_iff.mp hq2
          rcases List.mem_cons.mp hmem with h2 | h2
          · exact absurd h2 hpveq
          · exact List.mem_append.mpr (Or.inl h2)
      · exact Or.inr ⟨px, hcle _ px hpx, hcase⟩
    · left
      have hxsrc : e.source_vertex = x := hsrc
      have hdq : pu'.get_distance = q.get_distance := by rw [hpq]
      rw [hdq]
      have hpveq : pv s e q.get_distance =
          Path.seq x e (q.get_distance + e.distance) := by
        unfold pv
        rw [if_neg (by rw [hxsrc]; exact hxs), hxsrc]
      rw [hpveq]
      refine List.mem_append.mpr (Or.inr ?_)
      rw [hout]
      exact List.mem_map.mpr ⟨e, mem_outEdges.mpr ⟨he, hxsrc⟩, rfl⟩
  · -- no duplicate accounted edges
    have hpushmap : (((dget st.adj x).1.map
        (fun e => Path.seq x e (q.get_distance + e.distance))).map leafEdge) =
        outEdges es x := by
      rw [hout, List.map_map]
      have hcomp : (leafEdge ∘ fun e : Edge V =>
          Path.seq x e (q.get_distance + e.distance)) = id := by
        funext e
        rfl
      rw [hcomp, List.map_id]
    have hbind2 : (st.cells ++ [(x, q)]).bind (cellLeafEdges s) =
        st.cells.bind (cellLeafEdges s) ++ [leafEdge q] := by
      rw [bind_append_one]
      congr 1
      simp [cellLeafEdges, hxs, hlvq]
    show ((rest ++ (dget st.adj x).1.map
        (fun e => Path.seq x e (q.get_distance + e.distance))).map leafEdge ++
        (st.cells ++ [(x, q)]).bind (cellLeafEdges s)).Nodup
    rw [List.map_append, hpushmap, hbind2]
    have hperm : ((rest.map leafEdge ++ outEdges es x) ++
        (st.cells.bind (cellLeafEdges s) ++ [leafEdge q])).Perm
        (outEdges es x ++ (rest.map leafEdge ++
          (st.cells.bind (cellLeafEdges s) ++ [leafEdge q]))) := by
      have h1 : (rest.map leafEdge ++ outEdges es x).Perm
          (outEdges es x ++ rest.map leafEdge) := List.perm_append_comm
      have h2 := h1.append_right (st.cells.bind (cellLeafEdges s) ++ [leafEdge q])
      refine h2.trans ?_
      rw [List.append_assoc]
    rw [hperm.nodup_iff]
    rw [List.nodup_append]
    have hesnd : es.Nodup := hesND.of_map
    refine ⟨hesnd.filter _, ?_, ?_⟩
    · have hperm2 : (rest.map leafEdge ++
          (st.cells.bind (cellLeafEdges s) ++ [leafEdge q])).Perm
          (leafEdge q :: (rest.map leafEdge ++ st.cells.bind (cellLeafEdges s))) := by
        rw [← List.append_assoc]
        exact List.perm_append_singleton _ _
      rw [hperm2.nodup_iff]
      exact (usedEdges_pop_perm hpop).nodup_iff.mp hInv.usedND
    · intro a ha hb
      obtain ⟨haes, hasrc⟩ := mem_outEdges.mp ha
      have hbu : a ∈ usedEdges s st := by
        unfold usedEdges
        rcases List.mem_append.mp hb with h1 | h1
        · obtain ⟨y, hy, hye⟩ := List.mem_map.mp h1
          exact List.mem_append.mpr
            (Or.inl (List.mem_map.mpr ⟨y, hrest y hy, hye⟩))
        · rcases List.mem_append.mp h1 with h2 | h2
          · exact List.mem_append.mpr (Or.inr h2)
          · obtain rfl : a = leafEdge q := List.mem_singleton.mp h2
            exact List.mem_append.mpr
              (Or.inl (List.mem_map.mpr ⟨q, popMin_mem hpop, rfl⟩))
      obtain ⟨_, hsrcmem⟩ := hInv.usedSrc a hbu
      rw [hasrc] at hsrcmem
      exact (alookup_eq_none_iff.mp hnone) hsrcmem
  · intro e2 he2
    have hbind2 : (st.cells ++ [(x, q)]).bind (cellLeafEdges s) =
        st.cells.bind (cellLeafEdges s) ++ [leafEdge q] := by
      rw [bind_append_one]
      congr 1
      simp [cellLeafEdges, hxs, hlvq]
    have hkeys2 : (st.cells ++ [(x, q)]).map Prod.fst =
        st.cells.map Prod.fst ++ [x] := by
      rw [List.map_append]
      rfl
    unfold usedEdges at he2
    rw [List.map_append, hbind2] at he2
    have hold : ∀ a, a ∈ usedEdges s st →
        a ∈ es ∧ a.source_vertex ∈ (st.cells ++ [(x, q)]).map Prod.fst := by
      intro a hha
      obtain ⟨h1, h2⟩ := hInv.usedSrc a hha
      rw [hkeys2]
      exact ⟨h1, List.mem_append.mpr (Or.inl h2)⟩
    rcases List.mem_append.mp he2 with h1 | h1
    · rcases List.mem_append.mp h1 with h2 | h2
      · apply hold
        unfold usedEdges
        obtain ⟨y, hy, hye⟩ := List.mem_map.mp h2
        exact List.mem_append.mpr (Or.inl (List.mem_map.mpr ⟨y, hrest y hy, hye⟩))
      · have hpm2 : (((dget st.adj x).1.map
            (fun e => Path.seq x e (q.get_distance + e.distance))).map leafEdge) =
            outEdges es x := by
          rw [hout, List.map_map]
          have hcomp : (leafEdge ∘ fun e : Edge V =>
              Path.seq x e (q.get_distance + e.distance)) = id := by
            funext e
            rfl
          rw [hcomp, List.map_id]
        rw [hpm2] at h2
        obtain ⟨h3, h4⟩ := mem_outEdges.mp h2
        rw [hkeys2]
        refine ⟨h3, ?_⟩
        rw [h4]
        exact List.mem_append.mpr (Or.inr (List.mem_singleton.mpr rfl))
    · rcases List.mem_append.mp h1 with h2 | h2
      · apply hold
        unfold usedEdges
        exact List.mem_append.mpr (Or.inr h2)
      · obtain rfl : e2 = leafEdge q := List.mem_singleton.mp h2
        apply hold
        unfold usedEdges
        exact List.mem_append.mpr (Or.inl (List.mem_map.mpr ⟨q, popMin_mem hpop, rfl⟩))
  · intro p' hp'
    obtain ⟨p0, hp0, _⟩ := hInv.startMem
    have hp0' : alookup cells' s = some p0 := hcle s p0 hp0
    rw [hp0'] at hp'
    injection hp' with hp'
    rw [← hp']
    exact hInv.synHead p0 hp0

end SettlePreservation

section Termination

variable {V : Type} [DecidableEq V]

theorem aupdate_length {α : Type} (l : List (V × α)) (v : V) (b : α) :
    (aupdate l v b).length = l.length := by
  induction l with
  | nil => rfl
  | cons x t ih =>
    obtain ⟨k, a⟩ := x
    by_cases hk : k = v
    · simp [aupdate, hk]
    · simp [aupdate, hk, ih]

theorem nodup_subset_length {α : Type} {l l' : List α}
    (d : l.Nodup) (h : l ⊆ l') : l.length ≤ l'.length :=
  (List.subperm_of_subset d h).length_le

theorem inv_keys_subset {es : List (Edge V)} {s : V} {st : SPState V}
    (hInv : Inv es s st) :
    ∀ v ∈ st.cells.map Prod.fst,
      v = s ∨ v ∈ es.map (fun e => e.destination_vertex) := by
  intro v hv
  have hsome : (alookup st.cells v).isSome = true := alookup_isSome_iff.mpr hv
  rcases hp : alookup st.cells v with _ | p
  · rw [hp] at hsome
    cases hsome
  · have htree := hInv.treeOK v p hp
    obtain ⟨l0, hl0⟩ := List.exists_mem_of_ne_nil _ (@leaves_ne_nil V _ p)
    obtain ⟨hshape, _, hdest⟩ := htree l0 hl0
    rcases hshape with hOK | ⟨hvs, _⟩
    · cases l0 with
      | edge e =>
        obtain ⟨hees, _⟩ := hOK
        exact Or.inr (List.mem_map.mpr ⟨e, hees, hdest⟩)
      | seq u e d =>
        obtain ⟨hees, _, _, _⟩ := hOK
        exact Or.inr (List.mem_map.mpr ⟨e, hees, hdest⟩)
      | alt p1 p2 => exact absurd hOK leafOK_not_alt
    · exact Or.inl hvs

theorem inv_cells_len {es : List (Edge V)} {s : V} {st : SPState V}
    (hInv : Inv es s st) : st.cells.length ≤ es.length + 1 := by
  have hsub : (st.cells.map Prod.fst) ⊆
      s :: es.map (fun e => e.destination_vertex) := by
    intro v hv
    rcases inv_keys_subset hInv v hv with h | h
    · rw [h]
      exact List.mem_cons_self _ _
    · exact List.mem_cons_of_mem _ h
  have := nodup_subset_length hInv.keysND hsub
  simpa using this

theorem inv_queue_len {es : List (Edge V)} {s : V} {st : SPState V}
    (hInv : Inv es s st) : st.queue.length ≤ es.length := by
  have hnd : (st.queue.map leafEdge).Nodup := by
    have h := hInv.usedND
    unfold usedEdges at h
    exact (List.nodup_append.mp h).1
  have hsub : st.queue.map leafEdge ⊆ es := by
    intro a ha
    have h2 : a ∈ usedEdges s st := by
      unfold usedEdges
      exact List.mem_append.mpr (Or.inl ha)
    exact (hInv.usedSrc a h2).1
  have := nodup_subset_length hnd hsub
  simpa using this

/-- The per-iteration measure of the search loop: it strictly decreases at
each step, which bounds the number of iterations. -/
def stepMeasure (es : List (Edge V)) (st : SPState V) : Nat :=
  (es.length + 1 - st.cells.length) * (es.length + 2) + st.queue.length

/-- One iteration either finishes on an empty queue or produces a state
that keeps the invariant, shrinks the measure, and extends the adjacency
index by empty entries only. -/
theorem stepFn_classify {es : List (Edge V)} {s : V} {st : SPState V}
    (hw : ∀ e ∈ es, 0 ≤ e.distance) (hesND : (es.map edgeKey).Nodup)
    (hInv : Inv es s st) :
    (stepFn st = .done st ∧ st.queue = []) ∨
    (∃ st', stepFn st = .next st' ∧ Inv es s st' ∧
      stepMeasure es st' < stepMeasure es st ∧
      ∃ ext, st'.adj = st.adj ++ ext ∧
        ∀ y ∈ ext, y.2 = ([] : List (Edge V))) := by
  rcases hpop : popMin st.queue with _ | ⟨q, rest⟩
  · left
    constructor
    · unfold stepFn
      rw [hpop]
    · exact popMin_eq_none_iff.mp hpop
  · right
    have hqlen : st.queue.length = rest.length + 1 := by
      have h := (popMin_perm hpop).length_eq
      simpa using h
    rcases hcell : alookup st.cells q.get_destination_vertex with _ | pExist
    · -- settle branch
      have hInv' := inv_settle hw hesND hInv hpop hcell
      refine ⟨_, ?_, hInv', ?_, ?_⟩
      · unfold stepFn
        rw [hpop]
        dsimp only
        rw [hcell]
      · have hc1 : st.cells.length + 1 ≤ es.length + 1 := by
          have h := inv_cells_len hInv'
          simpa using h
        have hq' : (rest ++ (dget st.adj q.get_destination_vertex).1.map
            (fun e => Path.seq q.get_destination_vertex e
              (q.get_distance + e.distance))).length ≤ es.length :=
          inv_queue_len hInv'
        unfold stepMeasure
        have hlen : (st.cells ++ [(q.get_destination_vertex, q)]).length
            = st.cells.length + 1 := by simp
        show (es.length + 1 - (st.cells ++ [(q.get_destination_vertex, q)]).length) *
            (es.length + 2) + _ < _
        rw [hlen, hqlen]
        have ha : es.length + 1 - st.cells.length
            = (es.length - st.cells.length) + 1 := by omega
        have hb : es.length + 1 - (st.cells.length + 1)
            = es.length - st.cells.length := by omega
        rw [ha, hb, Nat.succ_mul]
        rw [Nat.add_assoc]
        apply Nat.add_lt_add_left
        dsimp only
        omega
      · rcases ha : alookup st.adj q.get_destination_vertex with _ | l
        · exact ⟨[(q.get_destination_vertex, [])], by simp [dget, ha], by simp⟩
        · exact ⟨[], by simp [dget, ha], by simp⟩
    · have hle : pExist.get_distance ≤ q.get_distance := by
        obtain ⟨B, _, hBq, hBc⟩ := hInv.bound
        exact (hBc _ pExist hcell).trans (hBq q (popMin_mem hpop))
      by_cases heq : pExist.get_distance = q.get_distance
      · have hInv' := inv_upgrade hInv hpop hcell heq
        refine ⟨_, ?_, hInv', ?_, ⟨[], by simp, by simp⟩⟩
        · unfold stepFn
          rw [hpop]
          dsimp only
          rw [hcell]
          dsimp only
          rw [if_pos hle, if_pos heq]
        · unfold stepMeasure
          rw [hqlen]
          have hc : (aupdate st.cells q.get_destination_vertex
              (Path.alt pExist q)).length = st.cells.length := aupdate_length _ _ _
          show (es.length + 1 - (aupdate st.cells q.get_destination_vertex
              (Path.alt pExist q)).length) * (es.length + 2) + rest.length < _
          rw [hc]
          exact Nat.add_lt_add_left (Nat.lt_succ_self _) _
      · have hlt : pExist.get_distance < q.get_distance := lt_of_le_of_ne hle heq
        have hInv' := inv_skip hInv hpop hcell hlt
        refine ⟨_, ?_, hInv', ?_, ⟨[], by simp, by simp⟩⟩
        · unfold stepFn
          rw [hpop]
          dsimp only
          rw [hcell]
          dsimp only
          rw [if_pos hle, if_neg heq]
        · unfold stepMeasure
          rw [hqlen]
          exact Nat.add_lt_add_left (Nat.lt_succ_self _) _

end Termination

section RunLemmas

variable {V : Type} [DecidableEq V]

/-- The state set up by lines 329-339 satisfies the loop invariant. -/
theorem inv_init {es : List (Edge V)} {s : V} {g : Graph V}
    (hadj : g.vertices_outgoing_edges = es.foldl addOutgoing [])
    (hw : ∀ e ∈ es, 0 ≤ e.distance) (hesND : (es.map edgeKey).Nodup) :
    Inv es s (initState g s) := by
  have hadjOK : AdjSpec es g.vertices_outgoing_edges := by
    rw [hadj]
    exact adjSpec_init es
  have hq0 : ((alookup g.vertices_outgoing_edges s).getD []) = outEdges es s := by
    rcases hl : alookup g.vertices_outgoing_edges s with _ | l
    · simp only [Option.getD_none]
      exact (adjSpec_none hadjOK hl).symm
    · simp only [Option.getD_some]
      exact hadjOK.2.1 s l hl
  have hcell0 : ∀ v p, alookup (initState g s).cells v = some p →
      v = s ∧ p = .edge ⟨s, s, 0⟩ := by
    intro v p h
    simp only [initState, alookup] at h
    by_cases hv : s = v
    · rw [if_pos hv] at h
      injection h with h
      exact ⟨hv.symm, h.symm⟩
    · rw [if_neg hv] at h
      cases h
  have hques : (initState g s).queue = (outEdges es s).map .edge := by
    simp only [initState]
    rw [hq0]
  refine ⟨hadjOK, ?_, ?_, ?_, ?_, ?_, ?_, ?_, ?_, ?_, ?_, ?_⟩
  · simp [initState]
  · exact ⟨.edge ⟨s, s, 0⟩, by simp [initState, alookup], rfl⟩
  · intro v p h
    obtain ⟨rfl, rfl⟩ := hcell0 v p h
    intro l hl
    simp only [leaves, List.mem_singleton] at hl
    subst hl
    exact ⟨Or.inr ⟨rfl, rfl⟩, rfl, rfl⟩
  · intro q hq
    rw [hques] at hq
    obtain ⟨e, he, rfl⟩ := List.mem_map.mp hq
    obtain ⟨hees, hesrc⟩ := mem_outEdges.mp he
    exact ⟨hees, hesrc⟩
  · refine ⟨0, le_refl _, ?_, ?_⟩
    · intro q hq
      rw [hques] at hq
      obtain ⟨e, he, rfl⟩ := List.mem_map.mp hq
      exact hw e (mem_outEdges.mp he).1
    · intro v p h
      obtain ⟨rfl, rfl⟩ := hcell0 v p h
      exact le_refl _
  · intro v p h r w hroute
    obtain ⟨rfl, rfl⟩ := hcell0 v p h
    exact routeTo_nonneg hw hroute
  · intro v p h
    obtain ⟨rfl, rfl⟩ := hcell0 v p h
    exact ⟨1, [v], by simp [Path.expandF]⟩
  · intro u pu hpu e he hsrc
    obtain ⟨rfl, rfl⟩ := hcell0 u pu hpu
    left
    rw [hques]
    have hpv : pv u e (Path.edge ⟨u, u, 0⟩).get_distance = .edge e := by
      unfold pv
      rw [if_pos hsrc]
    rw [hpv]
    exact List.mem_map.mpr ⟨e, mem_outEdges.mpr ⟨he, hsrc⟩, rfl⟩
  · show (usedEdges s (initState g s)).Nodup
    unfold usedEdges
    rw [hques]
    have h1 : ((outEdges es s).map Path.edge).map leafEdge = outEdges es s := by
      rw [List.map_map]
      have hcomp : (leafEdge ∘ (Path.edge : Edge V → Path V)) = id := by
        funext e
        rfl
      rw [hcomp, List.map_id]
    have h2 : (initState g s).cells.bind (cellLeafEdges s) = [] := by
      simp [initState, cellLeafEdges, leaves]
    rw [h1, h2, List.append_nil]
    exact (hesND.of_map).filter _
  · intro e he
    unfold usedEdges at he
    rw [hques] at he
    have h2 : (initState g s).cells.bind (cellLeafEdges s) = [] := by
      simp [initState, cellLeafEdges, leaves]
    rw [h2, List.append_nil] at he
    have h1 : ((outEdges es s).map Path.edge).map leafEdge = outEdges es s := by
      rw [List.map_map]
      have hcomp : (leafEdge ∘ (Path.edge : Edge V → Path V)) = id := by
        funext e
        rfl
      rw [hcomp, List.map_id]
    rw [h1] at he
    obtain ⟨hees, hesrc⟩ := mem_outEdges.mp he
    refine ⟨hees, ?_⟩
    rw [hesrc]
    simp [initState]
  · intro p h
    obtain ⟨_, rfl⟩ := hcell0 s p h
    rfl

/-- The loop terminates with the invariant on any invariant state, given
fuel above the measure, extending the adjacency index by empty entries
only. -/
theorem loop_ok {es : List (Edge V)} {s : V}
    (hw : ∀ e ∈ es, 0 ≤ e.distance) (hesND : (es.map edgeKey).Nodup) :
    ∀ (fuel : Nat) (st : SPState V), Inv es s st → stepMeasure es st < fuel →
      ∃ stF, loop fuel st = .ok stF ∧ Inv es s stF ∧ stF.queue = [] ∧
        ∃ ext, stF.adj = st.adj ++ ext ∧
          ∀ y ∈ ext, y.2 = ([] : List (Edge V)) := by
  intro fuel
  induction fuel with
  | zero =>
    intro st _ h
    exact absurd h (Nat.not_lt_zero _)
  | succ fuel ih =>
    intro st hInv hM
    rcases @stepFn_classify V _ es s _ hw hesND hInv with
      ⟨hdone, hq⟩ | ⟨st', hnext, hInv', hM', ext1, hext1, hext1e⟩
    · refine ⟨st, ?_, hInv, hq, [], by simp, by simp⟩
      unfold loop
      rw [hdone]
    · obtain ⟨stF, hF, hIF, hqF, ext2, hext2, hext2e⟩ := ih st' hInv' (by omega)
      refine ⟨stF, ?_, hIF, hqF, ext1 ++ ext2, ?_, ?_⟩
      · unfold loop
        rw [hnext]
        exact hF
      · rw [hext2, hext1, List.append_assoc]
      · intro y hy
        rcases List.mem_append.mp hy with h1 | h1
        · exact hext1e y h1
        · exact hext2e y h1

/-- Master run theorem: on a successfully constructed graph with
non-negative weights and a member start vertex, `calculate_shortest_paths`
returns a result whose final state satisfies the full invariant with an
empty queue, and whose graph differs from the input graph only by empty
adjacency entries. -/
theorem csp_run {vs : List V} {es : List (Edge V)} {g : Graph V} {s : V}
    (hg : Graph.init vs es = some g) (hw : ∀ e ∈ es, 0 ≤ e.distance)
    (hs : s ∈ vs) :
    ∃ g' m, g.calculate_shortest_paths s = .ok (g', m) ∧
      Inv es s ⟨m, [], g'.vertices_outgoing_edges⟩ ∧
      g'.vertices = g.vertices ∧ g'.edges = g.edges ∧
      g'.vertices_set = g.vertices_set ∧
      ∃ ext, g'.vertices_outgoing_edges = g.vertices_outgoing_edges ++ ext ∧
        ∀ y ∈ ext, y.2 = ([] : List (Edge V)) := by
  obtain ⟨hv, he, hvset, hvoe, hnd, hkey⟩ := init_some_fields hg
  have hsv : s ∈ g.vertices := by
    rw [hv]
    exact hs
  have hInv0 : Inv es s (initState g s) := inv_init hvoe hw hkey
  have hM0 : stepMeasure es (initState g s) <
      (g.edges.length + 1) * (g.edges.length + 2) := by
    rw [he]
    unfold stepMeasure
    have hc : (initState g s).cells.length = 1 := rfl
    have hq : (initState g s).queue.length ≤ es.length := by
      have hq0 : ((alookup g.vertices_outgoing_edges s).getD []) = outEdges es s := by
        have hadjOK : AdjSpec es g.vertices_outgoing_edges := by
          rw [hvoe]
          exact adjSpec_init es
        rcases hl : alookup g.vertices_outgoing_edges s with _ | l
        · simp only [Option.getD_none]
          exact (adjSpec_none hadjOK hl).symm
        · simp only [Option.getD_some]
          exact hadjOK.2.1 s l hl
      show (((alookup g.vertices_outgoing_edges s).getD []).map
        (Path.edge : Edge V → Path V)).length ≤ es.length
      rw [hq0, List.length_map]
      exact List.length_filter_le _ _
    rw [hc]
    have h1 : es.length + 1 - 1 = es.length := by omega
    rw [h1, Nat.succ_mul]
    apply Nat.add_lt_add_left
    omega
  obtain ⟨stF, hloop, hIF, hqF, ext, hext, hexte⟩ :=
    loop_ok hw hkey _ _ hInv0 hM0
  obtain ⟨cF, qF, aF⟩ := stF
  obtain rfl : qF = [] := hqF
  refine ⟨{g with vertices_outgoing_edges := aF}, cF, ?_, hIF, rfl, rfl, rfl,
    ext, hext, hexte⟩
  unfold Graph.calculate_shortest_paths
  rw [if_pos hsv, hloop]

end RunLemmas

section FinalState

variable {V : Type} [DecidableEq V] {es : List (Edge V)} {s : V}
variable {m : List (V × Path V)} {adj : List (V × List (Edge V))}

/-- Soundness of the returned map: every route a returned `Path` yields is
the implicit self route of the start vertex or a genuine route of the
path's distance. -/
theorem final_sound (hIF : Inv es s ⟨m, [], adj⟩) :
    ∀ v p, alookup m v = some p → ∀ f r, r ∈ Path.expandF m f p →
      (v = s ∧ r = [s]) ∨
      (RouteTo es s v r p.get_distance ∧ s ∉ r.dropLast) :=
  fun v p hp f r hr =>
    cells_sound hIF.treeOK f v p.get_distance p (hIF.treeOK v p hp) r hr

/-- Every vertex reachable by a route is a key of the returned map. -/
theorem final_reach (hIF : Inv es s ⟨m, [], adj⟩) :
    ∀ {v : V} {r : List V} {w : Int}, RouteTo es s v r w →
      (alookup m v).isSome = true := by
  intro v r w hroute
  induction hroute with
  | @single e he hsrc =>
    obtain ⟨p0, hp0, _⟩ := hIF.startMem
    rcases hIF.covered s p0 hp0 e he hsrc with hq | ⟨px, hpx, _⟩
    · exact absurd hq (List.not_mem_nil _)
    · rw [hpx]
      rfl
  | @snoc u r0 w0 e hr0 he hsrc ih =>
    rcases hpu : alookup m u with _ | pu
    · rw [hpu] at ih
      cases ih
    · rcases hIF.covered u pu hpu e he hsrc with hq | ⟨px, hpx, _⟩
      · exact absurd hq (List.not_mem_nil _)
      · rw [hpx]
        rfl

/-- Every settled non-start vertex has a genuine route achieving the
settled distance. -/
theorem final_dist_exists (hIF : Inv es s ⟨m, [], adj⟩) :
    ∀ v p, alookup m v = some p → v ≠ s →
      ∃ r, RouteTo es s v r p.get_distance ∧ s ∉ r.dropLast := by
  intro v p hp hvs
  obtain ⟨f, r, hr⟩ := hIF.nonemp v p hp
  rcases final_sound hIF v p hp f r hr with ⟨h1, _⟩ | ⟨h1, h2⟩
  · exact absurd h1 hvs
  · exact ⟨r, h1, h2⟩

/-- The start vertex's settled distance is zero. -/
theorem final_start_dist (hIF : Inv es s ⟨m, [], adj⟩) :
    ∀ p, alookup m s = some p → p.get_distance = 0 := by
  intro p hp
  obtain ⟨p0, hp0, hp0d⟩ := hIF.startMem
  rw [hp] at hp0
  injection hp0 with hp0
  rw [hp0]
  exact hp0d

/-- Completeness of the returned map: every minimal route that does not
revisit the start vertex is yielded by the settled path of its
destination. -/
theorem final_complete (hIF : Inv es s ⟨m, [], adj⟩) :
    ∀ {v : V} {r : List V} {w : Int}, RouteTo es s v r w →
      s ∉ r → (∀ r' w', RouteTo es s v r' w' → w ≤ w') →
      ∃ p f, alookup m v = some p ∧ r ∈ Path.expandF m f p := by
  intro v r w hroute
  induction hroute with
  | @single e he hsrc =>
    intro hns hmin
    have hvs : e.destination_vertex ≠ s := by
      intro h
      refine hns ?_
      rw [h]
      exact List.mem_singleton.mpr rfl
    obtain ⟨p0, hp0, hp0d⟩ := hIF.startMem
    rcases hIF.covered s p0 hp0 e he hsrc with hq | ⟨px, hpx, hcase⟩
    · exact absurd hq (List.not_mem_nil _)
    · rcases hcase with hlt | hmem
      · exfalso
        obtain ⟨rx, hrx, _⟩ := final_dist_exists hIF _ px hpx hvs
        have h1 := hmin rx px.get_distance hrx
        rw [hp0d, zero_add] at hlt
        linarith
      · have hpv : pv s e p0.get_distance = .edge e := by
          unfold pv
          rw [if_pos hsrc]
        rw [hpv] at hmem
        obtain ⟨f', hf'⟩ := expandF_of_mem_leaves hmem 1
        refine ⟨px, f', hpx, hf' _ ?_⟩
        simp [Path.expandF]
  | @snoc u r0 w0 e hr0 he hsrc ih =>
    intro hns hmin
    have hnr0 : s ∉ r0 := fun h => hns (List.mem_append.mpr (Or.inl h))
    have hvs : e.destination_vertex ≠ s := by
      intro h
      refine hns (List.mem_append.mpr (Or.inr ?_))
      rw [h]
      exact List.mem_singleton.mpr rfl
    have hus : u ≠ s := by
      intro h
      apply hnr0
      rw [← h] at hnr0 ⊢
      exact routeTo_mem_last hr0
    have hu : (alookup m u).isSome = true := final_reach hIF hr0
    rcases hpu : alookup m u with _ | pu
    · rw [hpu] at hu
      cases hu
    · have hmin_u : pu.get_distance ≤ w0 := hIF.minimal u pu hpu r0 w0 hr0
      rcases hIF.covered u pu hpu e he hsrc with hq | ⟨px, hpx, hcase⟩
      · exact absurd hq (List.not_mem_nil _)
      · obtain ⟨ru, hru, _⟩ := final_dist_exists hIF u pu hpu hus
        have hext : RouteTo es s e.destination_vertex
            (ru ++ [e.destination_vertex]) (pu.get_distance + e.distance) :=
          RouteTo.snoc hru he hsrc
        have hwle : w0 + e.distance ≤ pu.get_distance + e.distance :=
          hmin _ _ hext
        have hw0 : w0 = pu.get_distance := by linarith
        rcases hcase with hlt | hmem
        · exfalso
          obtain ⟨rv, hrv, _⟩ := final_dist_exists hIF _ px hpx hvs
          have h1 := hmin rv px.get_distance hrv
          rw [← hw0] at hlt
          linarith
        · have hpv : pv s e pu.get_distance =
              Path.seq u e (pu.get_distance + e.distance) := by
            unfold pv
            rw [if_neg (by rw [hsrc]; exact hus), hsrc]
          rw [hpv] at hmem
          have hminu : ∀ r' w', RouteTo es s u r' w' → w0 ≤ w' := by
            intro r' w' h'
            rw [hw0]
            exact hIF.minimal u pu hpu r' w' h'
          obtain ⟨p', f0, hp', hr0e⟩ := ih hnr0 hminu
          have hp'e : p' = pu := by
            rw [hpu] at hp'
            injection hp' with h2
            exact h2.symm
          rw [hp'e] at hr0e
          have hseq : r0 ++ [e.destination_vertex] ∈
              Path.expandF m (f0 + 1)
                (Path.seq u e (pu.get_distance + e.distance)) := by
            simp only [Path.expandF]
            rw [hpu]
            exact List.mem_map.mpr ⟨r0, hr0e, rfl⟩
          obtain ⟨f', hf'⟩ := expandF_of_mem_leaves hmem (f0 + 1)
          exact ⟨px, f', hpx, hf' _ hseq⟩

end FinalState

section NodupExpand

variable {V : Type} [DecidableEq V] {es : List (Edge V)} {s : V}
variable {m : List (V × Path V)} {adj : List (V × List (Edge V))}

theorem expandF_mem_ne_nil {cells : List (V × Path V)} :
    ∀ (f : Nat) (p : Path V) (r : List V), r ∈ Path.expandF cells f p → r ≠ [] := by
  intro f
  induction f with
  | zero =>
    intro p r hr
    simp [Path.expandF] at hr
  | succ f ih =>
    intro p r hr
    cases p with
    | edge e =>
      simp only [Path.expandF, List.mem_singleton] at hr
      rw [hr]
      simp
    | seq b e d =>
      simp only [Path.expandF] at hr
      rcases hb : alookup cells b with _ | pb
      · rw [hb] at hr
        cases hr
      · rw [hb] at hr
        obtain ⟨r0, _, rfl⟩ := List.mem_map.mp hr
        simp
    | alt p1 p2 =>
      simp only [Path.expandF, List.mem_append] at hr
      rcases hr with hr | hr
      · exact ih p1 r hr
      · exact ih p2 r hr

theorem mem_bind_sublist {A B : Type} (f : A → List B) :
    ∀ (l : List A) (x : A), x ∈ l → (f x).Sublist (l.bind f) := by
  intro l
  induction l with
  | nil => intro x hx; cases hx
  | cons a t ih =>
    intro x hx
    rcases List.mem_cons.mp hx with rfl | hx2
    · have h1 : (x :: t).bind f = f x ++ t.bind f := by simp
      rw [h1]
      exact List.sublist_append_left _ _
    · have h1 : (a :: t).bind f = f a ++ t.bind f := by simp
      rw [h1]
      exact (ih x hx2).trans (List.sublist_append_right _ _)

theorem expandF_to_leaf {cells : List (V × Path V)} :
    ∀ (p : Path V) (f : Nat) (r : List V), r ∈ Path.expandF cells f p →
      ∃ l0 ∈ leaves p, ∃ f', r ∈ Path.expandF cells f' l0 := by
  intro p
  induction p with
  | edge e =>
    intro f r hr
    exact ⟨.edge e, by simp [leaves], f, hr⟩
  | seq b e d =>
    intro f r hr
    exact ⟨.seq b e d, by simp [leaves], f, hr⟩
  | alt p1 p2 ih1 ih2 =>
    intro f r hr
    cases f with
    | zero => simp [Path.expandF] at hr
    | succ f =>
      simp only [Path.expandF, List.mem_append] at hr
      rcases hr with hr | hr
      · obtain ⟨l0, hl0, f', hf'⟩ := ih1 f r hr
        exact ⟨l0, by simp [leaves, hl0], f', hf'⟩
      · obtain ⟨l0, hl0, f', hf'⟩ := ih2 f r hr
        exact ⟨l0, by simp [leaves, hl0], f', hf'⟩

theorem edge_key_inj (hkey : (es.map edgeKey).Nodup) {e1 e2 : Edge V}
    (h1 : e1 ∈ es) (h2 : e2 ∈ es) (he : edgeKey e1 = edgeKey e2) : e1 = e2 :=
  List.inj_on_of_nodup_map hkey h1 h2 he

/-- Two leaves of the same settled cell (other than the start's) that carry
distinct edges yield disjoint route sets: a direct edge yields the length-1
route, and sequence leaves are told apart by the second-to-last vertex.
This is where rejecting duplicate (source, destination) pairs at
construction matters. -/
theorem leaf_expand_disjoint (hIF : Inv es s ⟨m, [], adj⟩)
    (hkey : (es.map edgeKey).Nodup) {v : V} (hv : v ≠ s)
    {dv1 dv2 : Int} {l1 l2 : Path V}
    (h1 : LeafSpec es s m v dv1 l1) (h2 : LeafSpec es s m v dv2 l2)
    (hne : leafEdge l1 ≠ leafEdge l2) (f1 f2 : Nat) (r : List V)
    (hr1 : r ∈ Path.expandF m f1 l1) (hr2 : r ∈ Path.expandF m f2 l2) :
    False := by
  obtain ⟨hs1, _, hd1⟩ := h1
  obtain ⟨hs2, _, hd2⟩ := h2
  have hOK1 : LeafOK es s m l1 := by
    rcases hs1 with h | ⟨h, _⟩
    · exact h
    · exact absurd h hv
  have hOK2 : LeafOK es s m l2 := by
    rcases hs2 with h | ⟨h, _⟩
    · exact h
    · exact absurd h hv
  -- the route from a sequence leaf has length at least 2 and its
  -- second-to-last vertex is the leaf's base vertex
  have hseqShape : ∀ (u : V) (e : Edge V) (d : Int) (f : Nat),
      LeafOK es s m (.seq u e d) → r ∈ Path.expandF m f (.seq u e d) →
      ∃ r0, r = r0 ++ [u] ++ [e.destination_vertex] := by
    intro u e d f hOK hr
    cases f with
    | zero => simp [Path.expandF] at hr
    | succ f =>
      obtain ⟨_, _, hus, pu, hpu, _⟩ := hOK
      simp only [Path.expandF] at hr
      rw [hpu] at hr
      obtain ⟨r0, hr0, rfl⟩ := List.mem_map.mp hr
      rcases final_sound hIF u pu hpu f r0 hr0 with ⟨h, _⟩ | ⟨hroute, _⟩
      · exact absurd h hus
      · obtain ⟨r00, rfl⟩ := routeTo_getLast hroute
        exact ⟨r00, rfl⟩
  have hedgeShape : ∀ (e : Edge V) (f : Nat),
      r ∈ Path.expandF m f (Path.edge e) → r = [e.destination_vertex] := by
    intro e f hr
    cases f with
    | zero => simp [Path.expandF] at hr
    | succ f =>
      simp only [Path.expandF, List.mem_singleton] at hr
      exact hr
  have hview : ∀ l : Path V, LeafOK es s m l →
      (∃ e, l = .edge e) ∨ (∃ u e d, l = .seq u e d) := by
    intro l h
    cases l with
    | edge e => exact Or.inl ⟨e, rfl⟩
    | seq u e d => exact Or.inr ⟨u, e, d, rfl⟩
    | alt p1 p2 => exact absurd h leafOK_not_alt
  rcases hview l1 hOK1 with ⟨e1, rfl⟩ | ⟨u1, e1, d1, rfl⟩
  · obtain ⟨he1, hsrc1⟩ := hOK1
    rcases hview l2 hOK2 with ⟨e2, rfl⟩ | ⟨u2, e2, d2, rfl⟩
    · obtain ⟨he2, hsrc2⟩ := hOK2
      apply hne
      show e1 = e2
      apply edge_key_inj hkey he1 he2
      unfold edgeKey
      rw [hsrc1, hsrc2]
      simp only [Path.get_destination_vertex] at hd1 hd2
      rw [hd1, hd2]
    · have ha := hedgeShape e1 f1 hr1
      obtain ⟨r0, hb⟩ := hseqShape u2 e2 d2 f2 hOK2 hr2
      rw [ha] at hb
      have : (1 : Nat) = r0.length + 1 + 1 := by
        have := congrArg List.length hb
        simpa using this
      omega
  · obtain ⟨he1, hsrc1, _, _⟩ := id hOK1
    rcases hview l2 hOK2 with ⟨e2, rfl⟩ | ⟨u2, e2, d2, rfl⟩
    · have ha := hedgeShape e2 f2 hr2
      obtain ⟨r0, hb⟩ := hseqShape u1 e1 d1 f1 hOK1 hr1
      rw [ha] at hb
      have : (1 : Nat) = r0.length + 1 + 1 := by
        have := congrArg List.length hb
        simpa using this
      omega
    · obtain ⟨he2, hsrc2, _, _⟩ := id hOK2
      by_cases huu : u1 = u2
      · apply hne
        show e1 = e2
        apply edge_key_inj hkey he1 he2
        unfold edgeKey
        rw [hsrc1, hsrc2, huu]
        simp only [Path.get_destination_vertex] at hd1 hd2
        rw [hd1, hd2]
      · obtain ⟨r1, hb1⟩ := hseqShape u1 e1 d1 f1 hOK1 hr1
        obtain ⟨r2, hb2⟩ := hseqShape u2 e2 d2 f2 hOK2 hr2
        simp only [Path.get_destination_vertex] at hd1 hd2
        rw [hd1] at hb1
        rw [hd2] at hb2
        rw [hb1] at hb2
        have hc : r1 ++ [u1] = r2 ++ [u2] :=
          List.append_cancel_right hb2
        have h1l : (r1 ++ [u1]).getLast? = some u1 := List.getLast?_concat _
        have h2l : (r2 ++ [u2]).getLast? = some u2 := List.getLast?_concat _
        rw [hc] at h1l
        rw [h1l] at h2l
        injection h2l with h2l
        exact huu h2l

/-- Each settled cell's counted leaves carry pairwise distinct edges. -/
theorem final_cell_leafND (hIF : Inv es s ⟨m, [], adj⟩) :
    ∀ u pu, alookup m u = some pu → u ≠ s →
      ((leaves pu).map leafEdge).Nodup := by
  intro u pu hpu hus
  have hmem : (u, pu) ∈ m := alookup_mem hpu
  have hsub : (cellLeafEdges s (u, pu)).Sublist (m.bind (cellLeafEdges s)) :=
    mem_bind_sublist _ _ _ hmem
  have hnd : (m.bind (cellLeafEdges s)).Nodup := by
    have h := hIF.usedND
    unfold usedEdges at h
    exact (List.nodup_append.mp h).2.1
  have h2 := List.Nodup.sublist hsub hnd
  simpa [cellLeafEdges, hus] using h2

/-- No duplicates among the routes a settled non-start cell yields, at any
fuel. -/
theorem final_nodup (hIF : Inv es s ⟨m, [], adj⟩)
    (hkey : (es.map edgeKey).Nodup) :
    ∀ (f : Nat) (v : V) (dv : Int) (p : Path V), v ≠ s →
      TreeOK es s m v dv p → ((leaves p).map leafEdge).Nodup →
      (Path.expandF m f p).Nodup := by
  intro f
  induction f with
  | zero =>
    intro v dv p _ _ _
    simp [Path.expandF]
  | succ f ih =>
    intro v dv p hv htree hnd
    cases p with
    | edge e => simp [Path.expandF]
    | seq b e d =>
      have hspec := htree (.seq b e d) (by simp [leaves])
      obtain ⟨hshape, _, _⟩ := hspec
      have hOK : LeafOK es s m (.seq b e d) := by
        rcases hshape with h | ⟨h, _⟩
        · exact h
        · exact absurd h hv
      obtain ⟨_, _, hbs, pu, hpu, _⟩ := hOK
      simp only [Path.expandF]
      rw [hpu]
      apply List.Nodup.map (List.append_left_injective _)
      exact ih b pu.get_distance pu hbs (hIF.treeOK b pu hpu)
        (final_cell_leafND hIF b pu hpu hbs)
    | alt p1 p2 =>
      obtain ⟨ht1, ht2⟩ := treeOK_alt.mp htree
      have hndsplit : ((leaves p1).map leafEdge).Nodup ∧
          ((leaves p2).map leafEdge).Nodup ∧
          ((leaves p1).map leafEdge).Disjoint ((leaves p2).map leafEdge) := by
        have h : ((leaves (Path.alt p1 p2)).map leafEdge) =
            (leaves p1).map leafEdge ++ (leaves p2).map leafEdge := by
          simp [leaves]
        rw [h] at hnd
        exact List.nodup_append.mp hnd
      simp only [Path.expandF]
      rw [List.nodup_append]
      refine ⟨ih v dv p1 hv ht1 hndsplit.1, ih v dv p2 hv ht2 hndsplit.2.1, ?_⟩
      intro r hr1 hr2
      obtain ⟨l1, hl1, f1, hf1⟩ := expandF_to_leaf p1 f r hr1
      obtain ⟨l2, hl2, f2, hf2⟩ := expandF_to_leaf p2 f r hr2
      have hne : leafEdge l1 ≠ leafEdge l2 := by
        intro hEq
        exact hndsplit.2.2 (List.mem_map.mpr ⟨l1, hl1, rfl⟩)
          (hEq ▸ List.mem_map.mpr ⟨l2, hl2, rfl⟩)
      exact leaf_expand_disjoint hIF hkey hv (ht1 l1 hl1) (ht2 l2 hl2)
        hne f1 f2 r hf1 hf2

end NodupExpand

section CacheConsistency

variable {V : Type} [DecidableEq V]

/-- The cached-distance consistency the claim about in-place replacement
asserts: every `_PathSequence` anywhere inside a path has its cached
distance equal to the current distance of its base cell's content plus its
added edge's distance. -/
def CacheOK (cells : List (V × Path V)) : Path V → Prop
  | .edge _ => True
  | .seq b e d => ∃ p, alookup cells b = some p ∧ d = p.get_distance + e.distance
  | .alt p1 p2 => CacheOK cells p1 ∧ CacheOK cells p2

theorem leafOK_cacheOK {es : List (Edge V)} {s : V} {cells : List (V × Path V)}
    {p : Path V} (h : LeafOK es s cells p) : CacheOK cells p := by
  cases p with
  | edge e => trivial
  | seq u e d =>
    obtain ⟨_, _, _, pu, hpu, hd⟩ := h
    exact ⟨pu, hpu, hd⟩
  | alt p1 p2 => exact absurd h leafOK_not_alt

theorem treeOK_cacheOK {es : List (Edge V)} {s : V} {cells : List (V × Path V)}
    {v : V} {dv : Int} {p : Path V} (h : TreeOK es s cells v dv p) :
    CacheOK cells p := by
  induction p with
  | edge e => trivial
  | seq b e d =>
    obtain ⟨hshape, _, _⟩ := h (.seq b e d) (by simp [leaves])
    rcases hshape with h1 | ⟨_, h1⟩
    · exact leafOK_cacheOK h1
    · cases h1
  | alt p1 p2 ih1 ih2 =>
    obtain ⟨h1, h2⟩ := treeOK_alt.mp h
    exact ⟨ih1 h1, ih2 h2⟩

/-- The states one `calculate_shortest_paths` run visits: the initial state
and everything the loop body reaches from it. -/
inductive Reachable (g : Graph V) (start : V) : SPState V → Prop
  | init : Reachable g start (initState g start)
  | step {st st' : SPState V} : Reachable g start st → stepFn st = .next st' →
      Reachable g start st'

/-- Every state the search visits satisfies the loop invariant. -/
theorem reachable_inv {vs : List V} {es : List (Edge V)} {g : Graph V} {s : V}
    (hg : Graph.init vs es = some g) (hw : ∀ e ∈ es, 0 ≤ e.distance)
    {st : SPState V} (hr : Reachable g s st) : Inv es s st := by
  obtain ⟨_, _, _, hvoe, _, hkey⟩ := init_some_fields hg
  induction hr with
  | init => exact inv_init hvoe hw hkey
  | step hr hstep ih =>
    rcases @stepFn_classify V _ es s _ hw hkey ih with ⟨hdone, _⟩ | ⟨st'', hnext, hInv', _, _⟩
    · rw [hdone] at hstep
      cases hstep
    · rw [hnext] at hstep
      injection hstep with hstep
      rw [← hstep]
      exact hInv'

/-- Characterisation of what one loop iteration does to a settled cell:
either the cell is untouched, or (the tie branch, lines 356-367) its
content p is replaced in place by a `_PathAlternatives` whose `path1` is p,
with unchanged distance, destination, and source. -/
theorem step_cell_change {V' : Type} [DecidableEq V'] {es : List (Edge V')} {s : V'}
    {st st' : SPState V'} (hInv : Inv es s st) (hstep : stepFn st = .next st') :
    ∀ v p p', alookup st.cells v = some p → alookup st'.cells v = some p' →
      p' = p ∨ ∃ qq, p' = .alt p qq ∧
        p'.get_distance = p.get_distance ∧
        p'.get_destination_vertex = p.get_destination_vertex ∧
        (∀ f v0, Path.get_source_vertexF st'.cells f p = some v0 →
          Path.get_source_vertexF st'.cells (f + 1) p' = some v0) := by
  intro v p p' hp hp'
  unfold stepFn at hstep
  rcases hpop : popMin st.queue with _ | ⟨q, rest⟩
  · rw [hpop] at hstep
    cases hstep
  · rw [hpop] at hstep
    dsimp only at hstep
    rcases hcell : alookup st.cells q.get_destination_vertex with _ | pExist
    · rw [hcell] at hstep
      dsimp only at hstep
      injection hstep with hstep
      rw [← hstep] at hp'
      dsimp only at hp'
      rw [alookup_append_of_some hp] at hp'
      injection hp' with hp'
      exact Or.inl hp'.symm
    · rw [hcell] at hstep
      dsimp only at hstep
      by_cases hle : pExist.get_distance ≤ q.get_distance
      · rw [if_pos hle] at hstep
        by_cases heq : pExist.get_distance = q.get_distance
        · rw [if_pos heq] at hstep
          injection hstep with hstep
          rw [← hstep] at hp'
          dsimp only at hp'
          by_cases hv : v = q.get_destination_vertex
          · subst hv
            rw [hcell] at hp
            injection hp with hp
            subst hp
            rw [alookup_aupdate_self _ hcell] at hp'
            injection hp' with hp'
            refine Or.inr ⟨q, hp'.symm, by rw [← hp']; rfl, by rw [← hp']; rfl, ?_⟩
            · intro f v0 hsrc
              rw [← hp']
              show Path.get_source_vertexF st'.cells (f + 1) (Path.alt pExist q) = some v0
              simp only [Path.get_source_vertexF]
              exact hsrc
          · rw [alookup_aupdate_of_ne _ hv] at hp'
            rw [hp] at hp'
            injection hp' with hp'
            exact Or.inl hp'.symm
        · rw [if_neg heq] at hstep
          injection hstep with hstep
          rw [← hstep] at hp'
          dsimp only at hp'
          rw [hp] at hp'
          injection hp' with hp'
          exact Or.inl hp'.symm
      · rw [if_neg hle] at hstep
        cases hstep

end CacheConsistency

section LoopErrors

variable {V : Type} [DecidableEq V]

theorem stepFn_fail_eq {st : SPState V} {e : Err} (h : stepFn st = .fail e) :
    e = .monotoneViolation := by
  unfold stepFn at h
  rcases hpop : popMin st.queue with _ | ⟨q, rest⟩
  · rw [hpop] at h
    cases h
  · rw [hpop] at h
    dsimp only at h
    rcases hcell : alookup st.cells q.get_destination_vertex with _ | pExist
    · rw [hcell] at h
      dsimp only at h
      cases h
    · rw [hcell] at h
      dsimp only at h
      by_cases hle : pExist.get_distance ≤ q.get_distance
      · rw [if_pos hle] at h
        by_cases heq : pExist.get_distance = q.get_distance
        · rw [if_pos heq] at h
          cases h
        · rw [if_neg heq] at h
          cases h
      · rw [if_neg hle] at h
        injection h with h
        exact h.symm

/-- The while loop can only fail through the line-355 assertion (or the
fuel artifact); the line-326 start-membership assertion is checked before
the loop and never inside it. -/
theorem loop_ne_startNotMember :
    ∀ (fuel : Nat) (st : SPState V), loop fuel st ≠ Except.error Err.startNotMember := by
  intro fuel
  induction fuel with
  | zero =>
    intro st h
    simp only [loop] at h
    injection h with h
    cases h
  | succ fuel ih =>
    intro st h
    simp only [loop] at h
    rcases hs : stepFn st with st' | stF | e
    · rw [hs] at h
      exact ih st' h
    · rw [hs] at h
      cases h
    · rw [hs] at h
      injection h with h
      rw [stepFn_fail_eq hs] at h
      cases h

end LoopErrors

/-! Concrete graphs used to instantiate and to refute claims. -/

/-- Single edge 1→2 of weight 3; vertex 2 has no outgoing edges, so settling
it makes the adjacency `defaultdict` grow through line 377. -/
def esD : List (Edge Nat) := [⟨1, 2, 3⟩]

def gD : Graph Nat := (Graph.init [1, 2] esD).getD ⟨[], [], [], []⟩

/-- The graph as it is after `gD.calculate_shortest_paths 1`: the adjacency
index has gained the empty entry for vertex 2. -/
def gD2 : Graph Nat := ⟨[1, 2], esD, [1, 2], [(1, [⟨1, 2, 3⟩]), (2, [])]⟩

def mD : List (Nat × Path Nat) := [(1, .edge ⟨1, 1, 0⟩), (2, .edge ⟨1, 2, 3⟩)]

/-- A zero-weight two-cycle between the start vertex and vertex 2. -/
def esA : List (Edge Nat) := [⟨1, 2, 0⟩, ⟨2, 1, 0⟩]

def gA : Graph Nat := (Graph.init [1, 2] esA).getD ⟨[], [], [], []⟩

def mA : List (Nat × Path Nat) :=
  [(1, .alt (.edge ⟨1, 1, 0⟩) (.seq 2 ⟨2, 1, 0⟩ 0)), (2, .edge ⟨1, 2, 0⟩)]

/-- A zero-weight self loop on the start vertex. -/
def esB : List (Edge Nat) := [⟨1, 1, 0⟩]

def gB : Graph Nat := (Graph.init [1] esB).getD ⟨[], [], [], []⟩

def mB : List (Nat × Path Nat) := [(1, .alt (.edge ⟨1, 1, 0⟩) (.edge ⟨1, 1, 0⟩))]

/-- Two tied routes 1→3 of different hop counts: direct (weight 2) and via
vertex 2 (weights 1 + 1). -/
def esC : List (Edge Nat) := [⟨1, 2, 1⟩, ⟨2, 3, 1⟩, ⟨1, 3, 2⟩]

def gC : Graph Nat := (Graph.init [1, 2, 3] esC).getD ⟨[], [], [], []⟩

def gC2 : Graph Nat :=
  ⟨[1, 2, 3], esC, [1, 2, 3],
   [(1, [⟨1, 2, 1⟩, ⟨1, 3, 2⟩]), (2, [⟨2, 3, 1⟩]), (3, [])]⟩

def pC3 : Path Nat := .alt (.edge ⟨1, 3, 2⟩) (.seq 2 ⟨2, 3, 1⟩ 2)

def mC : List (Nat × Path Nat) :=
  [(1, .edge ⟨1, 1, 0⟩), (2, .edge ⟨1, 2, 1⟩), (3, pC3)]

/-- An edge to a vertex absent from the supplied vertex list. -/
def esE : List (Edge Nat) := [⟨1, 2, 5⟩]

def gE : Graph Nat := (Graph.init [1] esE).getD ⟨[], [], [], []⟩

def gE2 : Graph Nat := ⟨[1], esE, [1], [(1, [⟨1, 2, 5⟩]), (2, [])]⟩

def mE : List (Nat × Path Nat) := [(1, .edge ⟨1, 1, 0⟩), (2, .edge ⟨1, 2, 5⟩)]

/-- The sixteen directed edges of the worked example of the specification
(each listed undirected edge in both directions). -/
def es8 : List (Edge Nat) :=
  [⟨1, 2, 10⟩, ⟨2, 1, 10⟩, ⟨2, 3, 20⟩, ⟨3, 2, 20⟩, ⟨1, 3, 30⟩, ⟨3, 1, 30⟩,
   ⟨1, 4, 20⟩, ⟨4, 1, 20⟩, ⟨4, 3, 10⟩, ⟨3, 4, 10⟩, ⟨1, 5, 20⟩, ⟨5, 1, 20⟩,
   ⟨5, 3, 20⟩, ⟨3, 5, 20⟩, ⟨3, 6, 10⟩, ⟨6, 3, 10⟩]

def vs8 : List Nat := [1, 2, 3, 4, 5, 6]

def g8 : Graph Nat := (Graph.init vs8 es8).getD ⟨[], [], [], []⟩

/-- The settled path of vertex 3 in the worked example: three tied routes
of distance 30. -/
def p8_3 : Path Nat :=
  .alt (.alt (.edge ⟨1, 3, 30⟩) (.seq 2 ⟨2, 3, 20⟩ 30)) (.seq 4 ⟨4, 3, 10⟩ 30)

/-- The settled path of vertex 6 in the worked example: a sequence over the
cell of vertex 3. -/
def p8_6 : Path Nat := .seq 3 ⟨3, 6, 10⟩ 40

def m8 : List (Nat × Path Nat) :=
  [(1, .edge ⟨1, 1, 0⟩), (2, .edge ⟨1, 2, 10⟩), (4, .edge ⟨1, 4, 20⟩),
   (5, .edge ⟨1, 5, 20⟩), (3, p8_3), (6, p8_6)]

section Claims

variable {V : Type} [DecidableEq V]

/-- Claim C6: `Graph` construction fails exactly on a duplicate vertex label
or a duplicate (source, destination) edge pair; the edge comparison
(`edgeKey`) ignores weights, and the failure is the construction's own
result (synchronous). -/
theorem claim_C6 (vs : List V) (es : List (Edge V)) :
    Graph.init vs es = none ↔ ¬ vs.Nodup ∨ ¬ (es.map edgeKey).Nodup := by
  rw [← Option.not_isSome_iff_eq_none, init_isSome_iff]
  tauto

/-- Claim C7: `calculate_shortest_paths` fails with the invalid-argument
error `startNotMember` exactly when the requested start vertex is not a
member of the graph's vertex list; for a member vertex this failure cannot
occur. -/
theorem claim_C7 (g : Graph V) (s : V) :
    g.calculate_shortest_paths s = .error .startNotMember ↔ s ∉ g.vertices := by
  unfold Graph.calculate_shortest_paths
  by_cases hs : s ∈ g.vertices
  · rw [if_pos hs]
    constructor
    · intro h
      exfalso
      rcases hl : loop ((g.edges.length + 1) * (g.edges.length + 2))
          (initState g s) with e | stF
      · rw [hl] at h
        dsimp only at h
        injection h with h
        rw [h] at hl
        exact loop_ne_startNotMember _ _ hl
      · rw [hl] at h
        dsimp only at h
        cases h
    · intro h
      exact absurd hs h
  · rw [if_neg hs]
    exact ⟨fun _ => hs, fun _ => rfl⟩

/-- Claim C9: construction performs no membership check of edge endpoints
against the vertex list (it succeeds whenever the labels and edge keys are
duplicate-free), and a search can settle an unlisted endpoint: the graph
`gE` is built from vertex list `[1]` and the edge `1→2`, and the result map
of `calculate_shortest_paths 1` has the unlisted vertex 2 as a key. -/
theorem claim_C9 :
    (∀ (vs : List V) (es : List (Edge V)), vs.Nodup → (es.map edgeKey).Nodup →
      (Graph.init vs es).isSome = true) ∧
    Graph.init [1] esE = some gE ∧
    (∃ e ∈ esE, e.destination_vertex ∉ ([1] : List Nat)) ∧
    gE.calculate_shortest_paths 1 = .ok (gE2, mE) ∧
    alookup mE 2 = some (.edge ⟨1, 2, 5⟩) ∧
    (2 : Nat) ∉ ([1] : List Nat) := by
  refine ⟨fun vs es h1 h2 => (init_isSome_iff vs es).mpr ⟨h1, h2⟩,
    by decide, by decide, rfl, by decide, by decide⟩

/-- Witness for C9 at a concrete input. -/
theorem claim_C9_witness :
    (Graph.init [(2 : Nat), 3] ([] : List (Edge Nat))).isSome = true :=
  claim_C9.1 [2, 3] [] (by decide) (by decide)

/-- Claim C4, amended: a `calculate_shortest_paths` call leaves the vertex
list, edge list and vertex set unchanged, but may extend the adjacency
index with empty entries (the `defaultdict` subscript of line 377); the
original claim that all four fields are unchanged is refuted by
`claim_C4_cex`. -/
theorem claim_C4 (vs : List V) (es : List (Edge V)) (g : Graph V) (s : V)
    (hg : Graph.init vs es = some g) (hw : ∀ e ∈ es, 0 ≤ e.distance)
    (hs : s ∈ vs) :
    ∃ g' m, g.calculate_shortest_paths s = .ok (g', m) ∧
      g'.vertices = g.vertices ∧ g'.edges = g.edges ∧
      g'.vertices_set = g.vertices_set ∧
      ∃ ext, g'.vertices_outgoing_edges = g.vertices_outgoing_edges ++ ext ∧
        ∀ y ∈ ext, y.2 = ([] : List (Edge V)) := by
  obtain ⟨g', m, hok, -, hv, he, hvs2, hext⟩ := csp_run hg hw hs
  exact ⟨g', m, hok, hv, he, hvs2, hext⟩

/-- Counterexample to C4 as stated: on the one-edge graph `gD`, settling
vertex 2 (which has no outgoing edges) inserts an empty adjacency entry, so
the adjacency index after the call differs from the one built at
construction. -/
theorem claim_C4_cex :
    gD.calculate_shortest_paths 1 = .ok (gD2, mD) ∧
    gD2.vertices_outgoing_edges ≠ gD.vertices_outgoing_edges := by
  exact ⟨rfl, by decide⟩

/-- Witness for the amended C4 at a concrete input. -/
theorem claim_C4_witness :
    ∃ g' m, gD.calculate_shortest_paths 1 = .ok (g', m) ∧
      g'.vertices = gD.vertices ∧ g'.edges = gD.edges ∧
      g'.vertices_set = gD.vertices_set ∧
      ∃ ext, g'.vertices_outgoing_edges = gD.vertices_outgoing_edges ++ ext ∧
        ∀ y ∈ ext, y.2 = ([] : List (Edge Nat)) :=
  claim_C4 [1, 2] esD gD 1 (by decide) (by decide) (by decide)

/-- Claim C5: under non-negative weights the line-355 assertion never
fails: at every state the search reaches, a popped path to an
already-settled vertex has distance at least the settled entry's distance,
and the call never returns the `monotoneViolation` error. -/
theorem claim_C5 (vs : List V) (es : List (Edge V)) (g : Graph V) (s : V)
    (hg : Graph.init vs es = some g) (hw : ∀ e ∈ es, 0 ≤ e.distance)
    (hs : s ∈ vs) :
    (∀ st, Reachable g s st → ∀ q rest, popMin st.queue = some (q, rest) →
      ∀ p, alookup st.cells q.get_destination_vertex = some p →
        p.get_distance ≤ q.get_distance) ∧
    g.calculate_shortest_paths s ≠ .error .monotoneViolation := by
  constructor
  · intro st hr q rest hpop p hp
    obtain ⟨B, hB0, hBq, hBc⟩ := (reachable_inv hg hw hr).bound
    exact le_trans (hBc _ p hp) (hBq q (popMin_mem hpop))
  · obtain ⟨g', m, hok, -, -, -, -, -⟩ := csp_run hg hw hs
    rw [hok]
    intro h
    cases h

/-- Witness for C5 at a concrete input. -/
theorem claim_C5_witness :
    gD.calculate_shortest_paths 1 ≠ Except.error Err.monotoneViolation :=
  (claim_C5 [1, 2] esD gD 1 (by decide) (by decide) (by decide)).2

/-- Claim C3, amended: every settled path yields at least one route at
sufficient fuel, every yielded route ends at the settled vertex (which is
the path's destination) and avoids the overall source everywhere except
possibly its final position, and every yielded route of a non-start vertex
is a genuine route whose total weight is the path's `get_distance`; the
start vertex's own path yields `[s]` (which contains the source), and
routes of different hop counts can be yielded for one path
(`claim_C3_cex`). -/
theorem claim_C3 (vs : List V) (es : List (Edge V)) (g : Graph V) (s : V)
    (hg : Graph.init vs es = some g) (hw : ∀ e ∈ es, 0 ≤ e.distance)
    (hs : s ∈ vs) :
    ∃ g' m, g.calculate_shortest_paths s = .ok (g', m) ∧
      ∀ v p, alookup m v = some p →
        p.get_destination_vertex = v ∧
        (∃ f r, r ∈ Path.expandF m f p) ∧
        ∀ f r, r ∈ Path.expandF m f p →
          r.getLast? = some v ∧ s ∉ r.dropLast ∧
          ((v = s ∧ r = [s]) ∨ RouteTo es s v r p.get_distance) := by
  obtain ⟨g', m, hok, hIF, -, -, -, -⟩ := csp_run hg hw hs
  refine ⟨g', m, hok, ?_⟩
  intro v p hp
  refine ⟨(treeOK_root (hIF.treeOK v p hp)).2, hIF.nonemp v p hp, ?_⟩
  intro f r hr
  rcases final_sound hIF v p hp f r hr with ⟨hv, hr1⟩ | ⟨h1, h2⟩
  · subst hv
    subst hr1
    refine ⟨?_, ?_, Or.inl ⟨rfl, rfl⟩⟩
    · exact (show (([] : List V) ++ [v]).getLast? = some v from
        List.getLast?_concat [])
    · exact List.not_mem_nil v
  · obtain ⟨r0, rfl⟩ := routeTo_getLast h1
    exact ⟨List.getLast?_concat r0, h2, Or.inr h1⟩

/-- Counterexample to C3 as stated: in the graph `gC` the settled path of
vertex 3 yields the tied routes `[3]` and `[2, 3]`, which have different
lengths; and the start vertex's own path yields `[1]`, which contains the
overall source vertex. -/
theorem claim_C3_cex :
    gC.calculate_shortest_paths 1 = .ok (gC2, mC) ∧
    alookup mC 3 = some pC3 ∧
    [3] ∈ Path.expandF mC 3 pC3 ∧ [2, 3] ∈ Path.expandF mC 3 pC3 ∧
    ([3] : List Nat).length ≠ ([2, 3] : List Nat).length ∧
    alookup mC 1 = some (.edge ⟨1, 1, 0⟩) ∧
    [1] ∈ Path.expandF mC 1 (.edge (⟨1, 1, 0⟩ : Edge Nat)) ∧
    (1 : Nat) ∈ [(1 : Nat)] := by
  refine ⟨rfl, by decide, by decide, by decide, by decide, by decide,
    by decide, by decide⟩

/-- Witness for the amended C3 at a concrete input. -/
theorem claim_C3_witness :
    ∃ g' m, gD.calculate_shortest_paths 1 = .ok (g', m) ∧
      ∀ v p, alookup m v = some p →
        p.get_destination_vertex = v ∧
        (∃ f r, r ∈ Path.expandF m f p) ∧
        ∀ f r, r ∈ Path.expandF m f p →
          r.getLast? = some v ∧ 1 ∉ r.dropLast ∧
          ((v = 1 ∧ r = [1]) ∨ RouteTo esD 1 v r p.get_distance) :=
  claim_C3 [1, 2] esD gD 1 (by decide) (by decide) (by decide)

/-- Claim C1: for a graph built from nonneg-weight, duplicate-free input
and a source vertex of the graph, the call succeeds and the keys of the
returned map are exactly the source plus the vertices reachable by a
route; the source's stored distance is 0 and every other key's stored
distance is achieved by a route and is a lower bound of every route's
weight (it is the minimum). -/
theorem claim_C1 (vs : List V) (es : List (Edge V)) (g : Graph V) (s : V)
    (hg : Graph.init vs es = some g) (hw : ∀ e ∈ es, 0 ≤ e.distance)
    (hs : s ∈ vs) :
    ∃ g' m, g.calculate_shortest_paths s = .ok (g', m) ∧
      (∀ v : V, (alookup m v).isSome = true ↔
        (v = s ∨ ∃ r w, RouteTo es s v r w)) ∧
      (∀ p, alookup m s = some p → p.get_distance = 0) ∧
      (∀ v p, alookup m v = some p → v ≠ s →
        (∃ r, RouteTo es s v r p.get_distance) ∧
        (∀ r w, RouteTo es s v r w → p.get_distance ≤ w)) := by
  obtain ⟨g', m, hok, hIF, -, -, -, -⟩ := csp_run hg hw hs
  refine ⟨g', m, hok, ?_, final_start_dist hIF, ?_⟩
  · intro v
    constructor
    · intro hsome
      rcases hp : alookup m v with _ | p
      · rw [hp] at hsome
        cases hsome
      · by_cases hvs2 : v = s
        · exact Or.inl hvs2
        · obtain ⟨r, hr, -⟩ := final_dist_exists hIF v p hp hvs2
          exact Or.inr ⟨r, _, hr⟩
    · rintro (rfl | ⟨r, w, hr⟩)
      · obtain ⟨p0, hp0, -⟩ := hIF.startMem
        rw [hp0]
        rfl
      · exact final_reach hIF hr
  · intro v p hp hvs2
    refine ⟨?_, hIF.minimal v p hp⟩
    obtain ⟨r, hr, -⟩ := final_dist_exists hIF v p hp hvs2
    exact ⟨r, hr⟩

/-- Witness for C1 at a concrete input. -/
theorem claim_C1_witness :
    ∃ g' m, gD.calculate_shortest_paths 1 = .ok (g', m) ∧
      (∀ v : Nat, (alookup m v).isSome = true ↔
        (v = 1 ∨ ∃ r w, RouteTo esD 1 v r w)) ∧
      (∀ p, alookup m 1 = some p → p.get_distance = 0) ∧
      (∀ v p, alookup m v = some p → v ≠ 1 →
        (∃ r, RouteTo esD 1 v r p.get_distance) ∧
        (∀ r w, RouteTo esD 1 v r w → p.get_distance ≤ w)) :=
  claim_C1 [1, 2] esD gD 1 (by decide) (by decide) (by decide)

/-- Claim C2, amended: for every valid graph, all yields of a settled
non-start vertex's path are minimal routes, they are duplicate-free at
every fuel, and every minimal route that avoids the source vertex is
yielded at some fuel (routes revisiting the source can be omitted, and a
zero-weight self loop shows one route can be yielded twice:
`claim_C2_cex`); on the worked example the path of vertex 3 expands to
exactly `[[3], [2, 3], [4, 3]]` and that of vertex 6 to exactly
`[[3, 6], [2, 3, 6], [4, 3, 6]]`. -/
theorem claim_C2 (vs : List V) (es : List (Edge V)) (g : Graph V) (s : V)
    (hg : Graph.init vs es = some g) (hw : ∀ e ∈ es, 0 ≤ e.distance)
    (hs : s ∈ vs) :
    (∃ g' m, g.calculate_shortest_paths s = .ok (g', m) ∧
      ∀ v p, alookup m v = some p → v ≠ s →
        (∀ r w, RouteTo es s v r w → s ∉ r →
          (∀ r' w', RouteTo es s v r' w' → w ≤ w') →
          ∃ f, r ∈ Path.expandF m f p) ∧
        (∀ f r, r ∈ Path.expandF m f p →
          RouteTo es s v r p.get_distance ∧
          ∀ r' w', RouteTo es s v r' w' → p.get_distance ≤ w') ∧
        (∀ f, (Path.expandF m f p).Nodup)) ∧
    (g8.calculate_shortest_paths 1 = .ok (g8, m8) ∧
      alookup m8 3 = some p8_3 ∧
      (∀ f, Path.expandF m8 (f + 4) p8_3 = [[3], [2, 3], [4, 3]]) ∧
      (∀ f, (Path.expandF m8 f p8_3).Sublist [[3], [2, 3], [4, 3]]) ∧
      alookup m8 6 = some p8_6 ∧
      (∀ f, Path.expandF m8 (f + 5) p8_6 = [[3, 6], [2, 3, 6], [4, 3, 6]]) ∧
      (∀ f, (Path.expandF m8 f p8_6).Sublist [[3, 6], [2, 3, 6], [4, 3, 6]])) := by
  constructor
  · obtain ⟨g', m, hok, hIF, -, -, -, -⟩ := csp_run hg hw hs
    have hkey : (es.map edgeKey).Nodup := (init_some_fields hg).2.2.2.2.2
    refine ⟨g', m, hok, ?_⟩
    intro v p hp hvs2
    refine ⟨?_, ?_, ?_⟩
    · intro r w hr hns hmin
      obtain ⟨p', f, hp', hrf⟩ := final_complete hIF hr hns hmin
      rw [hp] at hp'
      injection hp' with hp'
      rw [← hp'] at hrf
      exact ⟨f, hrf⟩
    · intro f r hrf
      rcases final_sound hIF v p hp f r hrf with ⟨h1, -⟩ | ⟨h1, -⟩
      · exact absurd h1 hvs2
      · exact ⟨h1, hIF.minimal v p hp⟩
    · intro f
      exact final_nodup hIF hkey f v p.get_distance p hvs2
        (hIF.treeOK v p hp) (final_cell_leafND hIF v p hp hvs2)
  · refine ⟨rfl, by decide, fun f => rfl, ?_, by decide, fun f => rfl, ?_⟩
    · intro f
      exact (show Path.expandF m8 (f + 4) p8_3 = [[3], [2, 3], [4, 3]]
        from rfl) ▸ expandF_mono m8 (Nat.le_add_right f 4) p8_3
    · intro f
      exact (show Path.expandF m8 (f + 5) p8_6 = [[3, 6], [2, 3, 6], [4, 3, 6]]
        from rfl) ▸ expandF_mono m8 (Nat.le_add_right f 5) p8_6

/-- Counterexample to C2 as stated: with a zero-weight cycle through the
source (`gA`), vertex 2 has the distinct minimal routes `[2]` and
`[2, 1, 2]` but its settled path never yields `[2, 1, 2]` (an omission);
and with a zero-weight self loop (`gB`) the start cell yields the route
`[1]` twice (not one entry per distinct route). -/
theorem claim_C2_cex :
    gA.calculate_shortest_paths 1 = .ok (gA, mA) ∧
    alookup mA 2 = some (.edge ⟨1, 2, 0⟩) ∧
    RouteTo esA 1 2 [2] 0 ∧
    RouteTo esA 1 2 [2, 1, 2] 0 ∧
    ([2, 1, 2] : List Nat) ≠ [2] ∧
    (∀ r w, RouteTo esA 1 2 r w → (0 : Int) ≤ w) ∧
    (∀ f, ([2, 1, 2] : List Nat) ∉ Path.expandF mA f (.edge ⟨1, 2, 0⟩)) ∧
    gB.calculate_shortest_paths 1 = .ok (gB, mB) ∧
    alookup mB 1 = some (.alt (.edge ⟨1, 1, 0⟩) (.edge ⟨1, 1, 0⟩)) ∧
    Path.expandF mB 2 (.alt (.edge (⟨1, 1, 0⟩ : Edge Nat)) (.edge ⟨1, 1, 0⟩)) =
      [[1], [1]] ∧
    ¬ (Path.expandF mB 2
      (.alt (.edge (⟨1, 1, 0⟩ : Edge Nat)) (.edge ⟨1, 1, 0⟩))).Nodup := by
  refine ⟨rfl, by decide, ?_, ?_, by decide, ?_, ?_, rfl, by decide,
    by decide, by decide⟩
  · exact @RouteTo.single Nat esA 1 ⟨1, 2, 0⟩ (by decide) rfl
  · have h3 : RouteTo esA 1 1 [2, 1] 0 :=
      @RouteTo.snoc Nat esA 1 2 [2] 0 ⟨2, 1, 0⟩
        (@RouteTo.single Nat esA 1 ⟨1, 2, 0⟩ (by decide) rfl) (by decide) rfl
    exact @RouteTo.snoc Nat esA 1 1 [2, 1] 0 ⟨1, 2, 0⟩ h3 (by decide) rfl
  · exact fun r w h => routeTo_nonneg (by decide) h
  · intro f
    cases f with
    | zero => exact fun h => absurd h (List.not_mem_nil _)
    | succ f => exact (by decide : ([2, 1, 2] : List Nat) ∉ [[2]])

/-- Witness for the amended C2 at a concrete input (the worked example). -/
theorem claim_C2_witness :
    (∃ g' m, g8.calculate_shortest_paths 1 = .ok (g', m) ∧
      ∀ v p, alookup m v = some p → v ≠ 1 →
        (∀ r w, RouteTo es8 1 v r w → 1 ∉ r →
          (∀ r' w', RouteTo es8 1 v r' w' → w ≤ w') →
          ∃ f, r ∈ Path.expandF m f p) ∧
        (∀ f r, r ∈ Path.expandF m f p →
          RouteTo es8 1 v r p.get_distance ∧
          ∀ r' w', RouteTo es8 1 v r' w' → p.get_distance ≤ w') ∧
        (∀ f, (Path.expandF m f p).Nodup)) ∧
    (g8.calculate_shortest_paths 1 = .ok (g8, m8) ∧
      alookup m8 3 = some p8_3 ∧
      (∀ f, Path.expandF m8 (f + 4) p8_3 = [[3], [2, 3], [4, 3]]) ∧
      (∀ f, (Path.expandF m8 f p8_3).Sublist [[3], [2, 3], [4, 3]]) ∧
      alookup m8 6 = some p8_6 ∧
      (∀ f, Path.expandF m8 (f + 5) p8_6 = [[3, 6], [2, 3, 6], [4, 3, 6]]) ∧
      (∀ f, (Path.expandF m8 f p8_6).Sublist [[3, 6], [2, 3, 6], [4, 3, 6]])) :=
  claim_C2 vs8 es8 g8 1 (by decide) (by decide) (by decide)

/-- Claim C10: every in-place replacement of a settled cell's content
during the search replaces a path p by a `_PathAlternatives` with `path1`
equal to p, preserving the distance, the destination vertex, and the
(fuel-indexed) source vertex; and at every reachable state, as well as in
the returned map, every `_PathSequence` inside a settled path has its
cached distance equal to its base cell's current distance plus its added
edge's distance (`CacheOK`). -/
theorem claim_C10 (vs : List V) (es : List (Edge V)) (g : Graph V) (s : V)
    (hg : Graph.init vs es = some g) (hw : ∀ e ∈ es, 0 ≤ e.distance)
    (hs : s ∈ vs) :
    (∀ st st', Reachable g s st → stepFn st = .next st' →
      ∀ v p p', alookup st.cells v = some p → alookup st'.cells v = some p' →
        p' = p ∨ ∃ qq, p' = .alt p qq ∧
          p'.get_distance = p.get_distance ∧
          p'.get_destination_vertex = p.get_destination_vertex ∧
          (∀ f v0, Path.get_source_vertexF st'.cells f p = some v0 →
            Path.get_source_vertexF st'.cells (f + 1) p' = some v0)) ∧
    (∀ st, Reachable g s st → ∀ v p, alookup st.cells v = some p →
      CacheOK st.cells p) ∧
    (∃ g' m, g.calculate_shortest_paths s = .ok (g', m) ∧
      ∀ v p, alookup m v = some p → CacheOK m p) := by
  refine ⟨?_, ?_, ?_⟩
  · intro st st' hr hstep
    exact step_cell_change (reachable_inv hg hw hr) hstep
  · intro st hr v p hp
    exact treeOK_cacheOK ((reachable_inv hg hw hr).treeOK v p hp)
  · obtain ⟨g', m, hok, hIF, -, -, -, -⟩ := csp_run hg hw hs
    exact ⟨g', m, hok, fun v p hp => treeOK_cacheOK (hIF.treeOK v p hp)⟩

/-- Witness for C10 at a concrete input. -/
theorem claim_C10_witness :
    CacheOK (initState gD 1).cells (Path.edge (⟨1, 1, 0⟩ : Edge Nat)) :=
  (claim_C10 [1, 2] esD gD 1 (by decide) (by decide) (by decide)).2.1
    (initState gD 1) Reachable.init 1 (.edge ⟨1, 1, 0⟩) (by decide)

end Claims

end GraphSpec
